import Mathlib

/-!
# Verification of the npy codec (`ndarray-npy` fork)

Shallow embedding of the repository's npy header codec
(`src/npy/header.rs`), element codec (`src/npy/mod.rs`) and streaming
writer (`src/npy/stream.rs`), together with proofs of the spec's claims.

Bytes are modelled as `Nat` values `< 256`; byte streams as `List Nat`
consumed from the front (the `io::Read` cursor semantics).  Machine
integer types are modelled as `Nat` with explicit bounds: `usize` is a
`Nat` `≤ USIZE_MAX` (the crate targets 64-bit platforms), `isize::MAX`
is `ISIZE_MAX`.  Multi-byte elements are modelled by their bit patterns
(a `Nat < 2^(8*width)`); this is faithful because the Rust code moves
raw fixed-width representations in both directions (a memcpy on write,
`read_*_into` on read), so signedness and float semantics never touch
the bytes.  The write platform is modelled as little-endian
(`cfg!(target_endian = "little")` branch of the source).
-/

namespace NdarrayNpy

/-- ASCII codes of a Lean string literal (used only for readable byte lists). -/
def ascii (s : String) : List Nat :=
  s.data.map Char.toNat

/-- `usize::MAX` on the modelled 64-bit platform. -/
def USIZE_MAX : Nat := 2 ^ 64 - 1

/-- `isize::MAX` on the modelled 64-bit platform. -/
def ISIZE_MAX : Nat := 2 ^ 63 - 1

/-- Model of the external `py_literal::Value` type (spec §6: the external
literal-value model exposing mapping/tuple/string/boolean/integer).
Strings are carried as their byte sequences. -/
inductive PyValue where
  | string (s : List Nat)
  | boolean (b : Bool)
  | integer (n : Int)
  | tuple (elems : List PyValue)
  | dict (entries : List (PyValue × PyValue))
deriving Repr

/-- A shape dimension as a literal value (`usize` embedded into the
big-integer literal type). -/
def pyInt (d : Nat) : PyValue := PyValue.integer (d : Int)

/-! ## Modelled external literal formatter

Modelled from the spec: the external literal-value model of §6
(`format(value) → ASCII text`), which the repository consumes through
`py_literal::Value::write_ascii`.  Its source is not part of this
repository; the model renders the Python-literal surface syntax the
header codec relies on: single-quoted strings with backslash escapes,
`True`/`False`, decimal integers, tuples `(a, b)` with the trailing
comma for 1-tuples, and dicts with `'key': value, ` entries. -/

/-- Fuelled decimal digit renderer; any fuel at least the value works,
and `natDigits` below instantiates it at the value itself. -/
def natDigitsF : Nat → Nat → List Nat
  | 0, n => [48 + n % 10]
  | fuel + 1, n =>
    if n < 10 then [48 + n] else natDigitsF fuel (n / 10) ++ [48 + n % 10]

/-- Decimal digit codes of `n`, most significant first. -/
def natDigits (n : Nat) : List Nat := natDigitsF n n

theorem natDigitsF_eq (n : Nat) : ∀ f, n ≤ f → natDigitsF f n = natDigitsF n n := by
  induction n using Nat.strong_induction_on with
  | _ n ih =>
    intro f hf
    by_cases h10 : n < 10
    · cases f with
      | zero =>
        have hn0 : n = 0 := by omega
        subst hn0
        rfl
      | succ g =>
        cases n with
        | zero => rfl
        | succ m =>
          rw [show natDigitsF (g + 1) (m + 1) = if m + 1 < 10 then [48 + (m + 1)]
              else natDigitsF g ((m + 1) / 10) ++ [48 + (m + 1) % 10] from rfl,
            show natDigitsF (m + 1) (m + 1) = if m + 1 < 10 then [48 + (m + 1)]
              else natDigitsF m ((m + 1) / 10) ++ [48 + (m + 1) % 10] from rfl]
          simp only [if_pos h10]
    · obtain ⟨g, rfl⟩ : ∃ g, f = g + 1 := ⟨f - 1, by omega⟩
      obtain ⟨m, rfl⟩ : ∃ m, n = m + 1 := ⟨n - 1, by omega⟩
      rw [show natDigitsF (g + 1) (m + 1) = if m + 1 < 10 then [48 + (m + 1)]
          else natDigitsF g ((m + 1) / 10) ++ [48 + (m + 1) % 10] from rfl,
        show natDigitsF (m + 1) (m + 1) = if m + 1 < 10 then [48 + (m + 1)]
          else natDigitsF m ((m + 1) / 10) ++ [48 + (m + 1) % 10] from rfl]
      simp only [if_neg h10]
      have hdiv : (m + 1) / 10 < m + 1 := Nat.div_lt_self (by omega) (by omega)
      rw [ih ((m + 1) / 10) hdiv g (by omega), ih ((m + 1) / 10) hdiv m (by omega)]

/-- Unfolding equation of `natDigits` matching the source recursion. -/
theorem natDigits_unfold (n : Nat) : natDigits n =
    if n < 10 then [48 + n] else natDigits (n / 10) ++ [48 + n % 10] := by
  unfold natDigits
  by_cases h10 : n < 10
  · rw [if_pos h10]
    cases n with
    | zero => rfl
    | succ m =>
      rw [show natDigitsF (m + 1) (m + 1) = if m + 1 < 10 then [48 + (m + 1)]
          else natDigitsF m ((m + 1) / 10) ++ [48 + (m + 1) % 10] from rfl, if_pos h10]
  · rw [if_neg h10]
    obtain ⟨m, rfl⟩ : ∃ m, n = m + 1 := ⟨n - 1, by omega⟩
    rw [show natDigitsF (m + 1) (m + 1) = if m + 1 < 10 then [48 + (m + 1)]
        else natDigitsF m ((m + 1) / 10) ++ [48 + (m + 1) % 10] from rfl, if_neg h10]
    rw [natDigitsF_eq ((m + 1) / 10) m (by omega)]

/-- Render an integer: optional minus sign, then decimal digits. -/
def intDigits (n : Int) : List Nat :=
  if n < 0 then 45 :: natDigits (-n).toNat else natDigits n.toNat

/-- Escape a string body: quote (39) and backslash (92) get a backslash. -/
def escapeBytes (s : List Nat) : List Nat :=
  s.flatMap fun c => if c = 39 ∨ c = 92 then [92, c] else [c]

mutual

/-- Render one literal value as ASCII bytes. -/
def fmtValue : PyValue → List Nat
  | .string s => 39 :: (escapeBytes s ++ [39])
  | .boolean true => ascii "True"
  | .boolean false => ascii "False"
  | .integer n => intDigits n
  | .tuple elems => 40 :: (fmtTupleInner elems ++ [41])
  | .dict entries => 123 :: (fmtDictInner entries ++ [125])

/-- Tuple body: `a,` for a 1-tuple, `a, b, c` otherwise. -/
def fmtTupleInner : List PyValue → List Nat
  | [] => []
  | [v] => fmtValue v ++ [44]
  | v :: rest => fmtValue v ++ (44 :: 32 :: fmtTupleInnerTail rest)

/-- Continuation of a ≥2-element tuple body. -/
def fmtTupleInnerTail : List PyValue → List Nat
  | [] => []
  | [v] => fmtValue v
  | v :: rest => fmtValue v ++ (44 :: 32 :: fmtTupleInnerTail rest)

/-- Dict body: every entry rendered as `key: value, ` (trailing separator
after each entry, the numpy header style). -/
def fmtDictInner : List (PyValue × PyValue) → List Nat
  | [] => []
  | (k, v) :: rest =>
    fmtValue k ++ (58 :: 32 :: (fmtValue v ++ (44 :: 32 :: fmtDictInner rest)))

end

/-! ## Modelled external literal parser

Modelled from the spec: the external literal-value model of §6
(`parse(text) → structured value or parse error`), consumed by the
repository through `str::parse::<py_literal::Value>()`.  The model is a
recursive-descent parser over ASCII byte lists covering the grammar the
header codec exchanges: atoms (single-quoted strings, `True`/`False`,
signed decimal integers), tuples of atoms, and a top-level dict whose
keys are atoms and whose values are atoms or tuples.  Failure is `none`
(the repository maps any parse failure to one error condition). -/

/-- Skip ASCII space bytes. -/
def skipWs : List Nat → List Nat
  | [] => []
  | c :: rest => if c = 32 then skipWs rest else c :: rest

/-- Is `c` an ASCII decimal digit code? -/
def isDigit (c : Nat) : Bool :=
  48 ≤ c && c ≤ 57

/-- Consume a run of digits, accumulating the decimal value. -/
def parseDigits (acc : Nat) : List Nat → Nat × List Nat
  | c :: rest =>
    if isDigit c then parseDigits (acc * 10 + (c - 48)) rest else (acc, c :: rest)
  | [] => (acc, [])

/-- Parse a string body up to the closing quote, undoing escapes. -/
def parseStrBody : List Nat → Option (List Nat × List Nat)
  | [] => none
  | c :: rest =>
    if c = 39 then some ([], rest)
    else if c = 92 then
      match rest with
      | [] => none
      | c2 :: r => (parseStrBody r).map fun p => (c2 :: p.1, p.2)
    else (parseStrBody rest).map fun p => (c :: p.1, p.2)

/-- Parse an atom: string, boolean, or integer.  No leading whitespace. -/
def parseAtom : List Nat → Option (PyValue × List Nat)
  | [] => none
  | c :: rest =>
    if isDigit c then
      let p := parseDigits 0 (c :: rest)
      some (.integer (p.1 : Int), p.2)
    else if c = 45 then
      match rest with
      | [] => none
      | d :: _ =>
        if isDigit d then
          let p := parseDigits 0 rest
          some (.integer (-(p.1 : Int)), p.2)
        else none
    else if c = 39 then
      (parseStrBody rest).map fun p => (.string p.1, p.2)
    else if c = 84 then
      match rest with
      | 114 :: 117 :: 101 :: r => some (.boolean true, r)
      | _ => none
    else if c = 70 then
      match rest with
      | 97 :: 108 :: 115 :: 101 :: r => some (.boolean false, r)
      | _ => none
    else none

/-- Parse the items of a tuple after the opening parenthesis; each item is
an atom; accepts an optional trailing comma before the closing `)` 41. -/
def parseItems (fuel : Nat) (input : List Nat) : Option (List PyValue × List Nat) :=
  match fuel with
  | 0 => none
  | fuel + 1 =>
    match skipWs input with
    | [] => none
    | c :: rest =>
      if c = 41 then some ([], rest)
      else do
        let (v, r1) ← parseAtom (c :: rest)
        match skipWs r1 with
        | [] => none
        | c2 :: r2 =>
          if c2 = 44 then do
            let (vs, r3) ← parseItems fuel r2
            pure (v :: vs, r3)
          else if c2 = 41 then some ([v], r2)
          else none

/-- Parse an atom or a parenthesised tuple of atoms. -/
def parseVal1 (input : List Nat) : Option (PyValue × List Nat) :=
  match input with
  | [] => none
  | c :: rest =>
    if c = 40 then
      (parseItems (rest.length + 1) rest).map fun p => (.tuple p.1, p.2)
    else parseAtom (c :: rest)

/-- Parse dict entries after the opening brace; keys are atoms, values are
`parseVal1` forms; accepts an optional trailing comma before the
closing brace 125. -/
def parseEntries (fuel : Nat) (input : List Nat) :
    Option (List (PyValue × PyValue) × List Nat) :=
  match fuel with
  | 0 => none
  | fuel + 1 =>
    match skipWs input with
    | [] => none
    | c :: rest =>
      if c = 125 then some ([], rest)
      else do
        let (k, r1) ← parseAtom (c :: rest)
        match skipWs r1 with
        | [] => none
        | c2 :: r2 =>
          if c2 = 58 then do
            let (v, r3) ← parseVal1 (skipWs r2)
            match skipWs r3 with
            | [] => none
            | c3 :: r4 =>
              if c3 = 44 then do
                let (kvs, r5) ← parseEntries fuel r4
                pure ((k, v) :: kvs, r5)
              else if c3 = 125 then some ([(k, v)], r4)
              else none
          else none

/-- Parse a complete literal: a dict or a `parseVal1` form, surrounded by
optional whitespace, consuming the whole input. -/
def pyParse (input : List Nat) : Option PyValue := do
  let (v, rest) ←
    match skipWs input with
    | [] => none
    | c :: rest =>
      if c = 123 then
        (parseEntries (rest.length + 1) rest).map fun p => ((PyValue.dict p.1 : PyValue), p.2)
      else parseVal1 (c :: rest)
  if (skipWs rest).isEmpty then pure v else none

/-! ## Error taxonomy (`src/npy/error.rs`)

I/O failures of the underlying byte stream are modelled by a single
`ioError` constructor per enum; in the byte-list model the only I/O
failure that can arise is `read_exact` / `read_*_into` hitting
end-of-stream, i.e. an `io::Error` of kind `UnexpectedEof`. -/

inductive ParseHeaderError where
  | magicString
  | version (major minor : Nat)
  /-- `HEADER_LEN` does not fit in `usize`; unreachable on the modelled
  64-bit platform (`usize::try_from(u32)` always succeeds). -/
  | headerLengthOverflow (n : Nat)
  | nonAscii
  | utf8Error
  | unknownKey (k : PyValue)
  | missingKey (k : String)
  | illegalValue (key : String) (value : PyValue)
  | dictParse
  | metaNotDict (v : PyValue)
  | missingNewline

inductive ReadHeaderError where
  | ioError
  | parse (e : ParseHeaderError)

inductive FormatHeaderError where
  | pyValueError
  | headerTooLong
deriving DecidableEq

inductive WriteHeaderError where
  | ioError
  | format (e : FormatHeaderError)

inductive WriteDataError where
  | ioError
  | tooManyElements (total written : Nat)
  | tooFewElements (total written : Nat)
deriving DecidableEq

inductive WriteNpyError where
  | ioError
  | formatHeader (e : FormatHeaderError)
  | writeHeader (e : WriteHeaderError)
  | writeData (e : WriteDataError)

inductive ReadDataError where
  /-- `ReadDataError::Io(e)`; the error EOF produces (`e.kind()` is
  `UnexpectedEof`). -/
  | ioError
  | wrongDescriptor (d : PyValue)
  /-- Declared in the source (`ReadDataError::MissingData`) but never
  constructed by it. -/
  | missingData
  | extraBytes (n : Nat)
  | parseBoolError (b : Nat)

inductive ReadNpyError where
  | ioError
  | parseHeader (e : ParseHeaderError)
  | readHeader (e : ReadHeaderError)
  | readData (e : ReadDataError)
  | lengthOverflow
  | wrongNdim (expected : Option Nat) (actual : Nat)

/-! ## Byte utilities -/

/-- Little-endian bytes of the bit pattern `x`, width `w`. -/
def leBytes : Nat → Nat → List Nat
  | 0, _ => []
  | w + 1, x => x % 256 :: leBytes w (x / 256)

/-- Recompose a little-endian byte list. -/
def fromLE : List Nat → Nat
  | [] => 0
  | b :: bs => b + 256 * fromLE bs

/-- Recompose a big-endian byte list. -/
def fromBE (bs : List Nat) : Nat := fromLE bs.reverse

/-- Consume exactly `n` bytes from the front of the stream; `none` models
`read_exact` failing with `UnexpectedEof`. -/
def takeExact (n : Nat) (input : List Nat) : Option (List Nat × List Nat) :=
  if n ≤ input.length then some (input.take n, input.drop n) else none

/-- `Vec::resize(n, fill)` on a byte vector. -/
def resizeFill (l : List Nat) (n : Nat) (fill : Nat) : List Nat :=
  l.take n ++ List.replicate (n - l.length) fill

/-- `usize::checked_add` on the modelled 64-bit platform. -/
def checked_add (a b : Nat) : Option Nat :=
  if a + b ≤ USIZE_MAX then some (a + b) else none

/-- `usize::checked_mul` on the modelled 64-bit platform. -/
def checked_mul (a b : Nat) : Option Nat :=
  if a * b ≤ USIZE_MAX then some (a * b) else none

/-! ## Header codec (`src/npy/header.rs`) -/

/-- `b"\x93NUMPY"`. -/
def MAGIC_STRING : List Nat := [147, 78, 85, 77, 80, 89]

/-- Total header length must be divisible by this. -/
def HEADER_DIVISOR : Nat := 64

/-- Bytes taken by the version number (major, minor). -/
def VERSION_NUM_BYTES : Nat := 2

structure HeaderLengthInfo where
  total_len : Nat
  formatted_header_len : List Nat

structure Header where
  type_descriptor : PyValue
  fortran_order : Bool
  shape : List Nat

inductive Version where
  | V1_0
  | V2_0
  | V3_0
deriving DecidableEq

def Version.from_bytes (b0 b1 : Nat) : Except ParseHeaderError Version :=
  match b0, b1 with
  | 1, 0 => .ok .V1_0
  | 2, 0 => .ok .V2_0
  | 3, 0 => .ok .V3_0
  | major, minor => .error (.version major minor)

def Version.major_version : Version → Nat
  | .V1_0 => 1
  | .V2_0 => 2
  | .V3_0 => 3

def Version.minor_version : Version → Nat
  | .V1_0 => 0
  | .V2_0 => 0
  | .V3_0 => 0

def Version.header_len_num_bytes : Version → Nat
  | .V1_0 => 2
  | .V2_0 => 4
  | .V3_0 => 4

/-- Read the header length field (little-endian `u16` for v1, `u32` for
v2/v3; `usize::try_from(u32)` never fails on the 64-bit platform, so the
`HeaderLengthOverflow` branch of the source is dead here). -/
def Version.read_header_len (v : Version) (input : List Nat) :
    Except ReadHeaderError (Nat × List Nat) :=
  match takeExact v.header_len_num_bytes input with
  | some (b, rest) => .ok (fromLE b, rest)
  | none => .error .ioError

/-- Format the header length, `none` when the value exceeds the version's
field (`u16::try_from` / `u32::try_from` failing). -/
def Version.format_header_len (v : Version) (header_len : Nat) : Option (List Nat) :=
  match v with
  | .V1_0 => if header_len ≤ 2 ^ 16 - 1 then some (leBytes 2 header_len) else none
  | .V2_0 | .V3_0 => if header_len ≤ 2 ^ 32 - 1 then some (leBytes 4 header_len) else none

/-- Length of the newline in bytes. -/
def NEWLINE_LEN : Nat := 1

def Version.compute_lengths (v : Version) (unpadded_arr_format : List Nat) :
    Option HeaderLengthInfo := do
  let prefixLen : Nat := MAGIC_STRING.length + VERSION_NUM_BYTES + v.header_len_num_bytes
  let a ← checked_add prefixLen unpadded_arr_format.length
  let unpadded_total_len ← checked_add a NEWLINE_LEN
  let pad_res := unpadded_total_len % HEADER_DIVISOR
  let padding_len := if pad_res = 0 then 0 else HEADER_DIVISOR - pad_res
  let total_len ← checked_add unpadded_total_len padding_len
  let formatted_header_len ← v.format_header_len (total_len - prefixLen)
  pure ⟨total_len, formatted_header_len⟩

def Header.to_py_value (h : Header) : PyValue :=
  .dict
    [ (.string (ascii "descr"), h.type_descriptor),
      (.string (ascii "fortran_order"), .boolean h.fortran_order),
      (.string (ascii "shape"), .tuple (h.shape.map pyInt)) ]

def Header.to_bytes (h : Header) : Except FormatHeaderError (List Nat) :=
  let arr_format := fmtValue h.to_py_value
  match [Version.V1_0, Version.V2_0].findSome?
      (fun v => (v.compute_lengths arr_format).map fun info => (v, info)) with
  | none => .error .headerTooLong
  | some (v, info) =>
    let out := MAGIC_STRING ++ [v.major_version, v.minor_version] ++
      info.formatted_header_len ++ arr_format
    .ok (resizeFill out (info.total_len - 1) 32 ++ [10])

/-- `Value::as_integer()?.to_usize()` over a shape tuple. -/
def parse_shape (value : PyValue) : Option (List Nat) :=
  match value with
  | .tuple elems =>
    elems.mapM fun e =>
      match e with
      | .integer n => if 0 ≤ n ∧ n ≤ (USIZE_MAX : Int) then some n.toNat else none
      | _ => none
  | _ => none

/-- The entry loop of `Header::from_py_value`: later duplicate keys
overwrite earlier ones; an unrecognized key or ill-typed value aborts. -/
def from_py_value_loop :
    List (PyValue × PyValue) → Option PyValue → Option Bool → Option (List Nat) →
    Except ParseHeaderError (Option PyValue × Option Bool × Option (List Nat))
  | [], td, fo, sh => .ok (td, fo, sh)
  | (key, value) :: rest, td, fo, sh =>
    match key with
    | .string k =>
      if k = ascii "descr" then
        from_py_value_loop rest (some value) fo sh
      else if k = ascii "fortran_order" then
        match value with
        | .boolean b => from_py_value_loop rest td (some b) sh
        | _ => .error (.illegalValue "fortran_order" value)
      else if k = ascii "shape" then
        match parse_shape value with
        | some s => from_py_value_loop rest td fo (some s)
        | none => .error (.illegalValue "shape" value)
      else .error (.unknownKey (.string k))
    | k => .error (.unknownKey k)

def Header.from_py_value (value : PyValue) : Except ParseHeaderError Header :=
  match value with
  | .dict d =>
    match from_py_value_loop d none none none with
    | .error e => .error e
    | .ok (td, fo, sh) =>
      match td, fo, sh with
      | some td, some fo, some sh => .ok ⟨td, fo, sh⟩
      | none, _, _ => .error (.missingKey "descr")
      | _, none, _ => .error (.missingKey "fortran_order")
      -- the source's literal (misspelled) key name is kept
      | _, _, none => .error (.missingKey "shaper")
  | _ => .error (.metaNotDict value)

/-- Is `c` a UTF-8 continuation byte? -/
def isCont (c : Nat) : Bool := 128 ≤ c && c ≤ 191

/-- UTF-8 validity (model of `std::str::from_utf8` succeeding). -/
def utf8Valid : List Nat → Bool
  | [] => true
  | c :: rest =>
    if c ≤ 127 then utf8Valid rest
    else if 194 ≤ c && c ≤ 223 then
      match rest with
      | c1 :: r => isCont c1 && utf8Valid r
      | _ => false
    else if c = 224 then
      match rest with
      | c1 :: c2 :: r => (160 ≤ c1 && c1 ≤ 191) && isCont c2 && utf8Valid r
      | _ => false
    else if (225 ≤ c && c ≤ 236) || c = 238 || c = 239 then
      match rest with
      | c1 :: c2 :: r => isCont c1 && isCont c2 && utf8Valid r
      | _ => false
    else if c = 237 then
      match rest with
      | c1 :: c2 :: r => (128 ≤ c1 && c1 ≤ 159) && isCont c2 && utf8Valid r
      | _ => false
    else if c = 240 then
      match rest with
      | c1 :: c2 :: c3 :: r =>
        (144 ≤ c1 && c1 ≤ 191) && isCont c2 && isCont c3 && utf8Valid r
      | _ => false
    else if 241 ≤ c && c ≤ 243 then
      match rest with
      | c1 :: c2 :: c3 :: r => isCont c1 && isCont c2 && isCont c3 && utf8Valid r
      | _ => false
    else if c = 244 then
      match rest with
      | c1 :: c2 :: c3 :: r =>
        (128 ≤ c1 && c1 ≤ 143) && isCont c2 && isCont c3 && utf8Valid r
      | _ => false
    else false

/-- Final stage of `Header::from_reader`: parse the descriptive-record
text and build the `Header`. -/
def fromReaderFinish (text rest : List Nat) :
    Except ReadHeaderError (Header × List Nat) :=
  match pyParse text with
  | none => .error (.parse .dictParse)
  | some v =>
    match Header.from_py_value v with
    | .ok h => .ok (h, rest)
    | .error e => .error (.parse e)

def Header.from_reader (input : List Nat) :
    Except ReadHeaderError (Header × List Nat) :=
  match takeExact MAGIC_STRING.length input with
  | none => .error .ioError
  | some (m, r1) =>
    if m ≠ MAGIC_STRING then .error (.parse .magicString)
    else
      match takeExact VERSION_NUM_BYTES r1 with
      | none => .error .ioError
      | some (b0 :: b1 :: _, r2) =>
        match Version.from_bytes b0 b1 with
        | .error e => .error (.parse e)
        | .ok version =>
          match version.read_header_len r2 with
          | .error e => .error e
          | .ok (header_len, r3) =>
            match takeExact header_len r3 with
            | none => .error .ioError
            | some (buf, rest) =>
              match buf.getLast? with
              | some 10 =>
                let without_newline := buf.dropLast
                match version with
                | .V1_0 | .V2_0 =>
                  if without_newline.all (fun c => c < 128) then
                    fromReaderFinish without_newline rest
                  else .error (.parse .nonAscii)
                | .V3_0 =>
                  if utf8Valid without_newline then
                    fromReaderFinish without_newline rest
                  else .error (.parse .utf8Error)
              | _ => .error (.parse .missingNewline)
      -- unreachable: `takeExact VERSION_NUM_BYTES` yields two bytes
      | some (_, _) => .error .ioError

/-! ## Element codec (`src/npy/mod.rs`) -/

/-- The closed set of supported primitive element types (the types the
source instantiates its per-type macros at). -/
inductive ElemType where
  | i8 | u8 | i16 | i32 | i64 | u16 | u32 | u64 | f32 | f64 | bool
deriving DecidableEq, Fintype

/-- `mem::size_of` of the element type. -/
def ElemType.width : ElemType → Nat
  | .i8 | .u8 | .bool => 1
  | .i16 | .u16 => 2
  | .i32 | .u32 | .f32 => 4
  | .i64 | .u64 | .f64 => 8

/-- `WritableElement::type_descriptor()` on the modelled little-endian
platform. -/
def ElemType.type_descriptor : ElemType → PyValue
  | .i8 => .string (ascii "|i1")
  | .u8 => .string (ascii "|u1")
  | .i16 => .string (ascii "<i2")
  | .i32 => .string (ascii "<i4")
  | .i64 => .string (ascii "<i8")
  | .u16 => .string (ascii "<u2")
  | .u32 => .string (ascii "<u4")
  | .u64 => .string (ascii "<u8")
  | .f32 => .string (ascii "<f4")
  | .f64 => .string (ascii "<f8")
  | .bool => .string (ascii "|b1")

/-- The descriptor strings each type's reader accepts (the match arms of
`read_to_end_exact_vec`, including the one-byte legacy aliases). -/
def ElemType.acceptedStrs : ElemType → List (List Nat)
  | .i8 => [ascii "|i1", ascii "i1", ascii "b"]
  | .u8 => [ascii "|u1", ascii "u1", ascii "B"]
  | .i16 => [ascii "<i2", ascii ">i2"]
  | .i32 => [ascii "<i4", ascii ">i4"]
  | .i64 => [ascii "<i8", ascii ">i8"]
  | .u16 => [ascii "<u2", ascii ">u2"]
  | .u32 => [ascii "<u4", ascii ">u4"]
  | .u64 => [ascii "<u8", ascii ">u8"]
  | .f32 => [ascii "<f4", ascii ">f4"]
  | .f64 => [ascii "<f8", ascii ">f8"]
  | .bool => [ascii "|b1"]

/-- Does type `E`'s reader accept descriptor `d`? -/
def acceptedDesc (E : ElemType) (d : PyValue) : Bool :=
  match d with
  | .string s => E.acceptedStrs.contains s
  | _ => false

/-- `WritableElement::write_slice` on the modelled little-endian platform:
each element's fixed-width representation, contiguously. -/
def write_slice_bytes (E : ElemType) (data : List Nat) : List Nat :=
  data.flatMap (leBytes E.width)

/-- `check_for_extra_bytes`: `Ok` iff the reader is exhausted. -/
def check_for_extra_bytes (rest : List Nat) : Except ReadDataError Unit :=
  if rest.length = 0 then .ok () else .error (.extraBytes rest.length)

/-- Split `count` chunks of `w` bytes, converting each with `conv`
(models byteorder's `read_*_into` filling an element buffer). -/
def decodeChunks (w : Nat) (conv : List Nat → Nat) : Nat → List Nat → List Nat
  | 0, _ => []
  | count + 1, bytes => conv (bytes.take w) :: decodeChunks w conv count (bytes.drop w)

/-- `read_to_end_exact_vec` of the one-byte integer types
(`impl_readable_primitive_one_byte`). -/
def read_one_byte (descs : List (List Nat)) (type_desc : PyValue) (len : Nat)
    (input : List Nat) : Except ReadDataError (List Nat) :=
  match type_desc with
  | .string s =>
    if descs.contains s then
      match takeExact len input with
      | none => .error .ioError
      | some (out, rest) =>
        match check_for_extra_bytes rest with
        | .error e => .error e
        | .ok _ => .ok out
    else .error (.wrongDescriptor (.string s))
  | other => .error (.wrongDescriptor other)

/-- `read_to_end_exact_vec` of the multi-byte types
(`impl_readable_primitive_multi_byte`). -/
def read_multi_byte (w : Nat) (littleDesc bigDesc : List Nat) (type_desc : PyValue)
    (len : Nat) (input : List Nat) : Except ReadDataError (List Nat) :=
  match type_desc with
  | .string s =>
    if s = littleDesc then
      match takeExact (w * len) input with
      | none => .error .ioError
      | some (bytes, rest) =>
        match check_for_extra_bytes rest with
        | .error e => .error e
        | .ok _ => .ok (decodeChunks w fromLE len bytes)
    else if s = bigDesc then
      match takeExact (w * len) input with
      | none => .error .ioError
      | some (bytes, rest) =>
        match check_for_extra_bytes rest with
        | .error e => .error e
        | .ok _ => .ok (decodeChunks w fromBE len bytes)
    else .error (.wrongDescriptor (.string s))
  | other => .error (.wrongDescriptor other)

/-- `read_to_end_exact_vec` of `bool`: read, check for extra bytes, then
validate the whole buffer before producing any value. -/
def read_bool (type_desc : PyValue) (len : Nat) (input : List Nat) :
    Except ReadDataError (List Nat) :=
  match type_desc with
  | .string s =>
    if s = ascii "|b1" then
      match takeExact len input with
      | none => .error .ioError
      | some (bytes, rest) =>
        match check_for_extra_bytes rest with
        | .error e => .error e
        | .ok _ =>
          match bytes.find? (fun b => decide (1 < b)) with
          | some b => .error (.parseBoolError b)
          | none => .ok bytes
    else .error (.wrongDescriptor (.string s))
  | other => .error (.wrongDescriptor other)

/-- `ReadableElement::read_to_end_exact_vec`, dispatched over the closed
set of element types.  Results are bit patterns (for `bool`: 0 or 1). -/
def read_to_end_exact_vec (E : ElemType) (type_desc : PyValue) (len : Nat)
    (input : List Nat) : Except ReadDataError (List Nat) :=
  match E with
  | .i8 => read_one_byte ElemType.i8.acceptedStrs type_desc len input
  | .u8 => read_one_byte ElemType.u8.acceptedStrs type_desc len input
  | .bool => read_bool type_desc len input
  | .i16 => read_multi_byte 2 (ascii "<i2") (ascii ">i2") type_desc len input
  | .i32 => read_multi_byte 4 (ascii "<i4") (ascii ">i4") type_desc len input
  | .i64 => read_multi_byte 8 (ascii "<i8") (ascii ">i8") type_desc len input
  | .u16 => read_multi_byte 2 (ascii "<u2") (ascii ">u2") type_desc len input
  | .u32 => read_multi_byte 4 (ascii "<u4") (ascii ">u4") type_desc len input
  | .u64 => read_multi_byte 8 (ascii "<u8") (ascii ">u8") type_desc len input
  | .f32 => read_multi_byte 4 (ascii "<f4") (ascii ">f4") type_desc len input
  | .f64 => read_multi_byte 8 (ascii "<f8") (ascii ">f8") type_desc len input

/-! ## Whole-file write and read (`WriteNpyExt` / `ReadNpyExt`) -/

/-- `WriteNpyExt::write_npy` for an array given by its shape, storage
order flag, and elements in memory order (the two contiguous branches of
the source; the strided fallback writes the same bytes as the C-order
branch with the elements in logical order). -/
def write_npy (E : ElemType) (shape : List Nat) (fortran_order : Bool)
    (data : List Nat) : Except FormatHeaderError (List Nat) :=
  match Header.to_bytes ⟨E.type_descriptor, fortran_order, shape⟩ with
  | .error e => .error e
  | .ok hb => .ok (hb ++ write_slice_bytes E data)

/-- `Dimension::size_checked()` of the host array library (collaborator,
spec §6): the checked product of the dimensions in `usize`. -/
def size_checked (shape : List Nat) : Option Nat :=
  shape.foldl (fun acc d => acc.bind fun a => checked_mul a d) (some 1)

/-- `ReadNpyExt::read_npy`: parse the header, guard the element count,
decode the payload.  The host-library reshaping (`from_shape_vec`,
`into_dimensionality`) is outside the codec; the result is the parsed
header together with the elements in memory order. -/
def read_npy (E : ElemType) (input : List Nat) :
    Except ReadNpyError (Header × List Nat) :=
  match Header.from_reader input with
  | .error e => .error (.readHeader e)
  | .ok (h, rest) =>
    match size_checked h.shape with
    | some len =>
      if len ≤ ISIZE_MAX then
        match read_to_end_exact_vec E h.type_descriptor len rest with
        | .error e => .error (.readData e)
        | .ok data => .ok (h, data)
      else .error .lengthOverflow
    | none => .error .lengthOverflow

/-! ## Streaming writer (`src/npy/stream.rs`) -/

structure NpyOutStream where
  tot_elems : Nat
  written_elems : Nat
  /-- Bytes written to the destination file so far. -/
  writer : List Nat
  closed : Bool

/-- `NpyOutStream::write_slice`, with the mutation made explicit: the
returned stream is the stream after the call. -/
def NpyOutStream.write_slice (E : ElemType) (s : NpyOutStream) (slice : List Nat) :
    Except WriteNpyError Nat × NpyOutStream :=
  if s.written_elems + slice.length > s.tot_elems then
    (.error (.writeData (.tooManyElements s.tot_elems (s.written_elems + slice.length))), s)
  else
    (.ok (s.written_elems + slice.length),
      { s with
        writer := s.writer ++ write_slice_bytes E slice,
        written_elems := s.written_elems + slice.length })

/-- `NpyOutStream::finished`. -/
def NpyOutStream.finished (s : NpyOutStream) : Bool :=
  s.tot_elems == s.written_elems

/-- `NpyOutStream::close`, with the consumed stream's final state made
explicit. -/
def NpyOutStream.close (s : NpyOutStream) :
    Except WriteDataError Unit × NpyOutStream :=
  let s := { s with closed := true }
  if s.written_elems < s.tot_elems then
    (.error (.tooFewElements s.tot_elems s.written_elems), s)
  else (.ok (), s)

/-- `NpyOutStreamBuilder::build`: write the header, compute the declared
total as the (unchecked in the source) product of the configured shape,
start the counter at zero. -/
def NpyOutStreamBuilder.build (E : ElemType) (shape : List Nat)
    (fortran_order : Bool) : Except WriteNpyError NpyOutStream :=
  match Header.to_bytes ⟨E.type_descriptor, fortran_order, shape⟩ with
  | .error e => .error (.writeHeader (.format e))
  | .ok hb => .ok ⟨shape.foldl (fun s a => s * a) 1, 0, hb, false⟩

/-! ## Byte-level lemmas -/

theorem length_leBytes (w x : Nat) : (leBytes w x).length = w := by
  induction w generalizing x with
  | zero => rfl
  | succ w ih => simp [leBytes, ih]

theorem fromLE_leBytes (w x : Nat) (h : x < 256 ^ w) : fromLE (leBytes w x) = x := by
  induction w generalizing x with
  | zero =>
    have : x = 0 := by simpa using h
    simp [this, leBytes, fromLE]
  | succ w ih =>
    have hx : x / 256 < 256 ^ w := by
      rw [Nat.div_lt_iff_lt_mul (by norm_num)]
      calc x < 256 ^ (w + 1) := h
        _ = 256 ^ w * 256 := by ring
    have hmod := Nat.mod_add_div x 256
    simp [leBytes, fromLE, ih _ hx]
    omega

theorem takeExact_append (a b : List Nat) : takeExact a.length (a ++ b) = some (a, b) := by
  simp [takeExact, List.take_left, List.drop_left]

theorem takeExact_eq_some {n : Nat} {input p q : List Nat}
    (h : takeExact n input = some (p, q)) :
    p.length = n ∧ input = p ++ q := by
  unfold takeExact at h
  split at h
  · rename_i hle
    injection h with h
    injection h with h1 h2
    subst h1; subst h2
    refine ⟨by simpa using hle, (List.take_append_drop n input).symm⟩
  · exact absurd h (by simp)

/-! ## Parser lemmas -/

@[simp] theorem skipWs_cons_32 (r : List Nat) : skipWs (32 :: r) = skipWs r := by
  simp [skipWs]

theorem skipWs_cons_of_ne {c : Nat} (r : List Nat) (h : c ≠ 32) :
    skipWs (c :: r) = c :: r := by
  simp [skipWs, h]

@[simp] theorem skipWs_replicate_append (k : Nat) (r : List Nat) :
    skipWs (List.replicate k 32 ++ r) = skipWs r := by
  induction k with
  | zero => simp
  | succ k ih => simpa [List.replicate_succ] using ih

theorem skipWs_replicate (k : Nat) : skipWs (List.replicate k 32) = [] := by
  simpa using skipWs_replicate_append k []

theorem parseDigits_stop (acc : Nat) (rest : List Nat)
    (h : ∀ c, rest.head? = some c → isDigit c = false) :
    parseDigits acc rest = (acc, rest) := by
  cases rest with
  | nil => rfl
  | cons c r => simp [parseDigits, h c rfl]

theorem natDigits_all (n : Nat) : ∀ c ∈ natDigits n, 48 ≤ c ∧ c ≤ 57 := by
  induction n using Nat.strong_induction_on with
  | _ n ih =>
    rw [natDigits_unfold]
    split
    · rename_i h
      intro c hc
      simp at hc
      omega
    · rename_i h
      intro c hc
      rcases List.mem_append.1 hc with hc | hc
      · exact ih (n / 10) (Nat.div_lt_self (by omega) (by omega)) c hc
      · simp at hc
        have := Nat.mod_lt n (show 0 < 10 by omega)
        omega

theorem natDigits_ne_nil (n : Nat) : natDigits n ≠ [] := by
  rw [natDigits_unfold]
  split
  · simp
  · simp

theorem parseDigits_natDigits (n : Nat) : ∀ (acc : Nat) (rest : List Nat),
    parseDigits acc (natDigits n ++ rest) =
      parseDigits (acc * 10 ^ (natDigits n).length + n) rest := by
  induction n using Nat.strong_induction_on with
  | _ n ih =>
    intro acc rest
    rw [natDigits_unfold]
    split
    · rename_i h
      have hd : isDigit (48 + n) = true := by simp [isDigit]; omega
      simp [parseDigits, hd]
    · rename_i h
      have hlt : n / 10 < n := Nat.div_lt_self (by omega) (by omega)
      rw [List.append_assoc, List.cons_append, List.nil_append, ih (n / 10) hlt]
      have hd : isDigit (48 + n % 10) = true := by
        have := Nat.mod_lt n (show 0 < 10 by omega)
        simp [isDigit]; omega
      have hmod := Nat.mod_add_div n 10
      simp [parseDigits, hd]
      congr 1
      · simp [pow_succ]
        ring_nf
        omega

theorem natDigits_cons (n : Nat) :
    ∃ c cs, natDigits n = c :: cs ∧ isDigit c = true := by
  rcases h : natDigits n with _ | ⟨c, cs⟩
  · exact absurd h (natDigits_ne_nil n)
  · refine ⟨c, cs, rfl, ?_⟩
    have := natDigits_all n c (by rw [h]; exact List.mem_cons_self c cs)
    simp [isDigit]
    omega

/-- A digit run followed by a non-digit parses as the written number. -/
theorem parseAtom_natDigits (n : Nat) (rest : List Nat)
    (hrest : ∀ c, rest.head? = some c → isDigit c = false) :
    parseAtom (natDigits n ++ rest) = some (.integer (n : Int), rest) := by
  obtain ⟨c, cs, hEq, hdig⟩ := natDigits_cons n
  rw [hEq, List.cons_append]
  rw [show parseAtom (c :: (cs ++ rest)) =
      (if isDigit c then
        let p := parseDigits 0 (c :: (cs ++ rest))
        some (.integer (p.1 : Int), p.2)
      else if c = 45 then
        match cs ++ rest with
        | [] => none
        | d :: _ =>
          if isDigit d then
            let p := parseDigits 0 (cs ++ rest)
            some (.integer (-(p.1 : Int)), p.2)
          else none
      else if c = 39 then
        (parseStrBody (cs ++ rest)).map fun p => (.string p.1, p.2)
      else if c = 84 then
        match cs ++ rest with
        | 114 :: 117 :: 101 :: r => some (.boolean true, r)
        | _ => none
      else if c = 70 then
        match cs ++ rest with
        | 97 :: 108 :: 115 :: 101 :: r => some (.boolean false, r)
        | _ => none
      else none) from rfl]
  rw [if_pos hdig]
  have : parseDigits 0 (c :: (cs ++ rest)) = (n, rest) := by
    rw [← List.cons_append, ← hEq, parseDigits_natDigits, parseDigits_stop _ _ hrest]
    simp
  simp [this]

theorem head_nonDigit {c0 : Nat} (h : isDigit c0 = false) (r : List Nat) :
    ∀ c, (c0 :: r).head? = some c → isDigit c = false := by
  intro c hc
  simp only [List.head?_cons, Option.some_inj] at hc
  subst hc
  exact h

theorem parseStrBody_cons (c : Nat) (rest : List Nat) :
    parseStrBody (c :: rest) =
      if c = 39 then some ([], rest)
      else if c = 92 then
        match rest with
        | [] => none
        | c2 :: r => (parseStrBody r).map fun p => (c2 :: p.1, p.2)
      else (parseStrBody rest).map fun p => (c :: p.1, p.2) := by
  cases rest <;> rfl

theorem parseStrBody_escape (s rest : List Nat) :
    parseStrBody (escapeBytes s ++ (39 :: rest)) = some (s, rest) := by
  induction s with
  | nil =>
    show parseStrBody ([] ++ (39 :: rest)) = some ([], rest)
    rw [List.nil_append, parseStrBody_cons, if_pos rfl]
  | cons c cs ih =>
    by_cases h : c = 39 ∨ c = 92
    · have hesc : escapeBytes (c :: cs) = 92 :: c :: escapeBytes cs := by
        simp [escapeBytes, h]
      rw [hesc, List.cons_append, List.cons_append, parseStrBody_cons,
        if_neg (by decide), if_pos rfl]
      dsimp only
      rw [ih]
      rfl
    · push_neg at h
      have hesc : escapeBytes (c :: cs) = c :: escapeBytes cs := by
        simp [escapeBytes, h.1, h.2]
      rw [hesc, List.cons_append, parseStrBody_cons, if_neg h.1, if_neg h.2]
      rw [ih]
      rfl

theorem parseAtom_string (s rest : List Nat) :
    parseAtom (fmtValue (.string s) ++ rest) = some (.string s, rest) := by
  have h1 : isDigit 39 = false := by decide
  simp only [fmtValue, List.cons_append, List.append_assoc, List.singleton_append]
  simp [parseAtom, h1, parseStrBody_escape]

theorem parseAtom_boolean (b : Bool) (rest : List Nat) :
    parseAtom (fmtValue (.boolean b) ++ rest) = some (.boolean b, rest) := by
  cases b
  · have h : fmtValue (.boolean false) = [70, 97, 108, 115, 101] := by decide
    rw [h]
    simp [parseAtom, show isDigit 70 = false from by decide]
  · have h : fmtValue (.boolean true) = [84, 114, 117, 101] := by decide
    rw [h]
    simp [parseAtom, show isDigit 84 = false from by decide]

theorem intDigits_natCast (d : Nat) : intDigits (d : Int) = natDigits d := by
  simp [intDigits]

theorem fmtValue_natInt (d : Nat) : fmtValue (pyInt d) = natDigits d := by
  rw [show fmtValue (pyInt d) = intDigits (d : Int) from rfl, intDigits_natCast]

theorem parseAtom_natInt (d : Nat) (rest : List Nat)
    (hrest : ∀ c, rest.head? = some c → isDigit c = false) :
    parseAtom (fmtValue (pyInt d) ++ rest) = some (pyInt d, rest) := by
  rw [fmtValue_natInt]
  exact parseAtom_natDigits d rest hrest

theorem fmtValue_length_pos (v : PyValue) : 0 < (fmtValue v).length := by
  cases v with
  | string s => simp [fmtValue]
  | boolean b => cases b <;> decide
  | integer n =>
    simp only [fmtValue, intDigits]
    split
    · simp
    · simpa [List.length_pos] using natDigits_ne_nil _
  | tuple l => simp [fmtValue]
  | dict l => simp [fmtValue]

theorem fmtTupleInnerTail_length (vs : List PyValue) :
    vs.length ≤ (fmtTupleInnerTail vs).length := by
  induction vs with
  | nil => simp [fmtTupleInnerTail]
  | cons v tail ih =>
    cases tail with
    | nil =>
      simpa [fmtTupleInnerTail] using fmtValue_length_pos v
    | cons w ws =>
      have hv := fmtValue_length_pos v
      simp only [fmtTupleInnerTail, List.length_append, List.length_cons] at ih ⊢
      omega

theorem fmtTupleInner_length (vs : List PyValue) :
    vs.length ≤ (fmtTupleInner vs).length := by
  cases vs with
  | nil => simp [fmtTupleInner]
  | cons v tail =>
    cases tail with
    | nil =>
      simpa [fmtTupleInner] using fmtValue_length_pos v
    | cons w ws =>
      have hv := fmtValue_length_pos v
      have ht := fmtTupleInnerTail_length (w :: ws)
      simp only [fmtTupleInner, List.length_append, List.length_cons] at ht ⊢
      omega

theorem parseItems_succ (fuel : Nat) (input : List Nat) :
    parseItems (fuel + 1) input =
      (match skipWs input with
      | [] => none
      | c :: rest =>
        if c = 41 then some ([], rest)
        else
          (parseAtom (c :: rest)).bind fun v =>
          match skipWs v.2 with
          | [] => none
          | c2 :: r2 =>
            if c2 = 44 then (parseItems fuel r2).bind fun p => some (v.1 :: p.1, p.2)
            else if c2 = 41 then some ([v.1], r2)
            else none) := by
  rfl

/-- One `parseItems` iteration ignores one leading space. -/
theorem parseItems_ws (fuel : Nat) (input : List Nat) :
    parseItems (fuel + 1) (32 :: input) = parseItems (fuel + 1) input := by
  rw [parseItems_succ, parseItems_succ, skipWs_cons_32]

/-- One `parseItems` iteration whose first item is a rendered integer. -/
theorem parseItems_consume_nat (f : Nat) (a : Nat) (tail : List Nat)
    (htail : ∀ c, tail.head? = some c → isDigit c = false) :
    parseItems (f + 1) (natDigits a ++ tail) =
      (match skipWs tail with
       | [] => none
       | c2 :: r2 =>
         if c2 = 44 then
           (parseItems f r2).bind fun p => some (pyInt a :: p.1, p.2)
         else if c2 = 41 then some ([pyInt a], r2)
         else none) := by
  obtain ⟨c, cs, hEq, hdig⟩ := natDigits_cons a
  have hc32 : c ≠ 32 := by simp [isDigit] at hdig; omega
  have hc41 : c ≠ 41 := by simp [isDigit] at hdig; omega
  rw [parseItems_succ, hEq, List.cons_append, skipWs_cons_of_ne _ hc32]
  dsimp only
  rw [if_neg hc41, ← List.cons_append, ← hEq, parseAtom_natDigits a tail htail]
  rfl

/-- Parsing the continuation of a ≥1-element tuple body of integers. -/
theorem parseItems_natTail (ns : List Nat) (hne : ns ≠ []) :
    ∀ fuel : Nat, ns.length ≤ fuel → ∀ rest : List Nat,
      parseItems fuel
          (fmtTupleInnerTail (ns.map pyInt) ++ (41 :: rest)) =
        some (ns.map pyInt, rest) := by
  induction ns with
  | nil => exact absurd rfl hne
  | cons a tail ih =>
    intro fuel hfuel rest
    cases tail with
    | nil =>
      have h1 : 1 ≤ fuel := by simpa using hfuel
      obtain ⟨f, rfl⟩ : ∃ f, fuel = f + 1 := ⟨fuel - 1, by omega⟩
      rw [List.map_cons, List.map_nil,
        show fmtTupleInnerTail [pyInt a] = fmtValue (pyInt a) from rfl, fmtValue_natInt]
      rw [parseItems_consume_nat f a _ (head_nonDigit (by decide) rest),
        skipWs_cons_of_ne _ (show (41 : Nat) ≠ 32 from by decide)]
      simp
    | cons b bs =>
      have h1 : (b :: bs).length + 1 ≤ fuel := by simpa using hfuel
      obtain ⟨f, rfl⟩ : ∃ f, fuel = f + 1 := ⟨fuel - 1, by omega⟩
      have h2 : 1 ≤ f := by simp at h1; omega
      obtain ⟨f2, rfl⟩ : ∃ f2, f = f2 + 1 := ⟨f - 1, by omega⟩
      rw [List.map_cons,
        show fmtTupleInnerTail (pyInt a :: ((b :: bs).map pyInt)) =
          fmtValue (pyInt a) ++ (44 :: 32 ::
            fmtTupleInnerTail ((b :: bs).map pyInt)) from rfl,
        fmtValue_natInt, List.append_assoc]
      simp only [List.cons_append]
      rw [parseItems_consume_nat (f2 + 1) a _ (head_nonDigit (by decide) _),
        skipWs_cons_of_ne _ (show (44 : Nat) ≠ 32 from by decide)]
      dsimp only
      rw [if_pos rfl, parseItems_ws, ih (by simp) (f2 + 1) (by simpa using h1) rest]
      rfl

/-- Parsing a whole tuple body of integers. -/
theorem parseItems_natList (ns : List Nat) (fuel : Nat) (hfuel : ns.length < fuel)
    (rest : List Nat) :
    parseItems fuel
        (fmtTupleInner (ns.map pyInt) ++ (41 :: rest)) =
      some (ns.map pyInt, rest) := by
  cases ns with
  | nil =>
    obtain ⟨f, rfl⟩ : ∃ f, fuel = f + 1 := ⟨fuel - 1, by omega⟩
    rw [List.map_nil, show fmtTupleInner [] = ([] : List Nat) from rfl, List.nil_append,
      parseItems_succ, skipWs_cons_of_ne _ (show (41 : Nat) ≠ 32 from by decide)]
    simp
  | cons a tail =>
    cases tail with
    | nil =>
      have h1 : 2 ≤ fuel := by simp at hfuel; omega
      obtain ⟨f, rfl⟩ : ∃ f, fuel = f + 1 := ⟨fuel - 1, by omega⟩
      have h2 : 1 ≤ f := by omega
      obtain ⟨f2, rfl⟩ : ∃ f2, f = f2 + 1 := ⟨f - 1, by omega⟩
      rw [List.map_cons, List.map_nil,
        show fmtTupleInner [pyInt a] = fmtValue (pyInt a) ++ [44] from rfl,
        fmtValue_natInt, List.append_assoc]
      rw [show (([44] : List Nat) ++ (41 :: rest)) = 44 :: 41 :: rest from rfl]
      rw [parseItems_consume_nat (f2 + 1) a _ (head_nonDigit (by decide) _),
        skipWs_cons_of_ne _ (show (44 : Nat) ≠ 32 from by decide)]
      dsimp only
      rw [if_pos rfl, parseItems_succ,
        skipWs_cons_of_ne _ (show (41 : Nat) ≠ 32 from by decide)]
      simp
    | cons b bs =>
      have h1 : (b :: bs).length + 1 < fuel := by simpa using hfuel
      obtain ⟨f, rfl⟩ : ∃ f, fuel = f + 1 := ⟨fuel - 1, by omega⟩
      have h2 : 1 ≤ f := by simp at h1; omega
      obtain ⟨f2, rfl⟩ : ∃ f2, f = f2 + 1 := ⟨f - 1, by omega⟩
      rw [List.map_cons,
        show fmtTupleInner (pyInt a :: ((b :: bs).map pyInt)) =
          fmtValue (pyInt a) ++ (44 :: 32 ::
            fmtTupleInnerTail ((b :: bs).map pyInt)) from rfl,
        fmtValue_natInt, List.append_assoc]
      simp only [List.cons_append]
      rw [parseItems_consume_nat (f2 + 1) a _ (head_nonDigit (by decide) _),
        skipWs_cons_of_ne _ (show (44 : Nat) ≠ 32 from by decide)]
      dsimp only
      rw [if_pos rfl, parseItems_ws,
        parseItems_natTail (b :: bs) (by simp) (f2 + 1) (by simp at h1 ⊢; omega) rest]
      rfl

/-- Parsing a rendered tuple of integers as a value. -/
theorem parseVal1_natTuple (ns : List Nat) (rest : List Nat) :
    parseVal1 (fmtValue (.tuple (ns.map pyInt)) ++ rest) =
      some (.tuple (ns.map pyInt), rest) := by
  have hlen : ns.length <
      (fmtTupleInner (ns.map pyInt) ++ (41 :: rest)).length + 1 := by
    have h1 := fmtTupleInner_length (ns.map pyInt)
    simp only [List.length_map] at h1
    simp only [List.length_append, List.length_cons]
    omega
  simp only [fmtValue, List.cons_append, List.append_assoc, List.singleton_append,
    List.nil_append]
  rw [show parseVal1 (40 :: (fmtTupleInner (ns.map pyInt) ++ 41 :: rest)) =
      (parseItems ((fmtTupleInner (ns.map pyInt) ++ 41 :: rest).length + 1)
        (fmtTupleInner (ns.map pyInt) ++ 41 :: rest)).map
        (fun p => (.tuple p.1, p.2)) from rfl]
  rw [parseItems_natList ns _ hlen rest]
  rfl

theorem fmtValue_head_ne32 (v : PyValue) : ∃ c cs, fmtValue v = c :: cs ∧ c ≠ 32 := by
  cases v with
  | string s => exact ⟨39, _, rfl, by decide⟩
  | boolean b =>
    cases b
    · exact ⟨70, [97, 108, 115, 101], by decide, by decide⟩
    · exact ⟨84, [114, 117, 101], by decide, by decide⟩
  | integer n =>
    simp only [fmtValue, intDigits]
    split
    · exact ⟨45, _, rfl, by decide⟩
    · obtain ⟨c, cs, hEq, hdig⟩ := natDigits_cons n.toNat
      refine ⟨c, cs, hEq, ?_⟩
      simp [isDigit] at hdig
      omega
  | tuple l => exact ⟨40, _, rfl, by decide⟩
  | dict l => exact ⟨123, _, rfl, by decide⟩

theorem skipWs_fmtValue (v : PyValue) (r : List Nat) :
    skipWs (fmtValue v ++ r) = fmtValue v ++ r := by
  obtain ⟨c, cs, hEq, hne⟩ := fmtValue_head_ne32 v
  rw [hEq, List.cons_append, skipWs_cons_of_ne _ hne]

theorem parseVal1_of_parseAtom {c : Nat} {t : List Nat} {res : PyValue × List Nat}
    (hne : c ≠ 40) (h : parseAtom (c :: t) = some res) : parseVal1 (c :: t) = some res := by
  rw [show parseVal1 (c :: t) =
      (if c = 40 then
        (parseItems (t.length + 1) t).map fun p => (.tuple p.1, p.2)
      else parseAtom (c :: t)) from rfl, if_neg hne, h]

theorem parseVal1_string (s r : List Nat) :
    parseVal1 (fmtValue (.string s) ++ r) = some (.string s, r) := by
  have h := parseAtom_string s r
  rw [show fmtValue (.string s) ++ r = 39 :: ((escapeBytes s ++ [39]) ++ r) from rfl] at h ⊢
  exact parseVal1_of_parseAtom (by decide) h

theorem parseVal1_boolean (b : Bool) (r : List Nat) :
    parseVal1 (fmtValue (.boolean b) ++ r) = some (.boolean b, r) := by
  have h := parseAtom_boolean b r
  cases b
  · have hb : fmtValue (.boolean false) = [70, 97, 108, 115, 101] := by decide
    rw [hb, List.cons_append] at h ⊢
    exact parseVal1_of_parseAtom (by decide) h
  · have hb : fmtValue (.boolean true) = [84, 114, 117, 101] := by decide
    rw [hb, List.cons_append] at h ⊢
    exact parseVal1_of_parseAtom (by decide) h

theorem parseEntries_succ (fuel : Nat) (input : List Nat) :
    parseEntries (fuel + 1) input =
      (match skipWs input with
      | [] => none
      | c :: rest =>
        if c = 125 then some ([], rest)
        else
          (parseAtom (c :: rest)).bind fun k =>
          match skipWs k.2 with
          | [] => none
          | c2 :: r2 =>
            if c2 = 58 then
              (parseVal1 (skipWs r2)).bind fun v =>
              match skipWs v.2 with
              | [] => none
              | c3 :: r4 =>
                if c3 = 44 then
                  (parseEntries fuel r4).bind fun p => some ((k.1, v.1) :: p.1, p.2)
                else if c3 = 125 then some ([(k.1, v.1)], r4)
                else none
            else none) := rfl

theorem parseEntries_ws (fuel : Nat) (input : List Nat) :
    parseEntries (fuel + 1) (32 :: input) = parseEntries (fuel + 1) input := by
  rw [parseEntries_succ, parseEntries_succ, skipWs_cons_32]

/-- One `parseEntries` iteration consuming a rendered `key: value, `
entry whose key is a string. -/
theorem parseEntries_consume (f : Nat) (ks : List Nat) (v : PyValue) (more : List Nat)
    (hv : parseVal1 (fmtValue v ++ (44 :: 32 :: more)) = some (v, 44 :: 32 :: more)) :
    parseEntries (f + 1)
        (fmtValue (.string ks) ++ (58 :: 32 :: (fmtValue v ++ (44 :: 32 :: more)))) =
      (parseEntries f (32 :: more)).bind fun p =>
        some ((PyValue.string ks, v) :: p.1, p.2) := by
  have ha := parseAtom_string ks (58 :: 32 :: (fmtValue v ++ (44 :: 32 :: more)))
  rw [show fmtValue (.string ks) ++ (58 :: 32 :: (fmtValue v ++ (44 :: 32 :: more))) =
      39 :: ((escapeBytes ks ++ [39]) ++ (58 :: 32 :: (fmtValue v ++ (44 :: 32 :: more))))
      from rfl] at ha ⊢
  rw [parseEntries_succ, skipWs_cons_of_ne _ (show (39 : Nat) ≠ 32 from by decide)]
  dsimp only
  rw [if_neg (by decide), ha, Option.some_bind]
  rw [skipWs_cons_of_ne _ (show (58 : Nat) ≠ 32 from by decide)]
  dsimp only
  rw [if_pos rfl, skipWs_cons_32, skipWs_fmtValue, hv, Option.some_bind]
  rw [skipWs_cons_of_ne _ (show (44 : Nat) ≠ 32 from by decide)]
  dsimp only
  rw [if_pos rfl]

theorem pyParse_dict (inp : List Nat) :
    pyParse (123 :: inp) =
      ((parseEntries (inp.length + 1) inp).map fun p =>
        ((PyValue.dict p.1 : PyValue), p.2)).bind
        (fun p => if (skipWs p.2).isEmpty then some p.1 else none) := rfl

/-- The header's rendered descriptive record, followed by any run of
padding spaces, parses back to the header's literal value. -/
theorem pyParse_header (s : List Nat) (b : Bool) (shape : List Nat) (k : Nat) :
    pyParse (fmtValue (Header.to_py_value ⟨.string s, b, shape⟩) ++ List.replicate k 32) =
      some (Header.to_py_value ⟨.string s, b, shape⟩) := by
  rw [show fmtValue (Header.to_py_value ⟨.string s, b, shape⟩) =
      123 :: (fmtDictInner
        [(PyValue.string (ascii "descr"), PyValue.string s),
         (PyValue.string (ascii "fortran_order"), PyValue.boolean b),
         (PyValue.string (ascii "shape"), PyValue.tuple (shape.map pyInt))] ++ [125])
      from rfl]
  rw [show fmtDictInner
        [(PyValue.string (ascii "descr"), PyValue.string s),
         (PyValue.string (ascii "fortran_order"), PyValue.boolean b),
         (PyValue.string (ascii "shape"), PyValue.tuple (shape.map pyInt))] =
      fmtValue (.string (ascii "descr")) ++ (58 :: 32 :: (fmtValue (.string s) ++ (44 :: 32 ::
      (fmtValue (.string (ascii "fortran_order")) ++ (58 :: 32 ::
        (fmtValue (.boolean b) ++ (44 :: 32 ::
      (fmtValue (.string (ascii "shape")) ++ (58 :: 32 ::
        (fmtValue (.tuple (shape.map pyInt)) ++ (44 :: 32 :: ([] : List Nat))))))))))))
      from rfl]
  rw [List.cons_append]
  simp only [List.append_assoc, List.cons_append, List.nil_append, List.singleton_append]
  rw [pyParse_dict]
  have hlen3 : 3 ≤ (fmtValue (.string (ascii "descr")) ++ (58 :: 32 ::
      (fmtValue (.string s) ++ (44 :: 32 :: (fmtValue (.string (ascii "fortran_order")) ++
      (58 :: 32 :: (fmtValue (.boolean b) ++ (44 :: 32 ::
      (fmtValue (.string (ascii "shape")) ++ (58 :: 32 ::
      (fmtValue (.tuple (shape.map pyInt)) ++
        (44 :: 32 :: 125 :: List.replicate k 32)))))))))))).length := by
    have h1 := fmtValue_length_pos (PyValue.string (ascii "descr"))
    simp only [List.length_append, List.length_cons]
    omega
  revert hlen3
  generalize (fmtValue (.string (ascii "descr")) ++ (58 :: 32 ::
      (fmtValue (.string s) ++ (44 :: 32 :: (fmtValue (.string (ascii "fortran_order")) ++
      (58 :: 32 :: (fmtValue (.boolean b) ++ (44 :: 32 ::
      (fmtValue (.string (ascii "shape")) ++ (58 :: 32 ::
      (fmtValue (.tuple (shape.map pyInt)) ++
        (44 :: 32 :: 125 :: List.replicate k 32)))))))))))).length = N
  intro hlen3
  obtain ⟨m, rfl⟩ : ∃ m, N = m + 3 := ⟨N - 3, by omega⟩
  rw [show m + 3 + 1 = (m + 3) + 1 from rfl,
    parseEntries_consume (m + 3) (ascii "descr") (.string s) _ (parseVal1_string s _)]
  rw [show m + 3 = (m + 2) + 1 from rfl, parseEntries_ws,
    parseEntries_consume (m + 2) (ascii "fortran_order") (.boolean b) _
      (parseVal1_boolean b _)]
  rw [show m + 2 = (m + 1) + 1 from rfl, parseEntries_ws,
    parseEntries_consume (m + 1) (ascii "shape") (.tuple (shape.map pyInt)) _
      (parseVal1_natTuple shape _)]
  rw [show m + 1 = m + 1 from rfl, parseEntries_ws, parseEntries_succ,
    skipWs_cons_of_ne _ (show (125 : Nat) ≠ 32 from by decide)]
  dsimp only
  rw [if_pos rfl]
  simp [skipWs_replicate, Header.to_py_value]

theorem parse_shape_map (shape : List Nat) (h : ∀ d ∈ shape, d ≤ USIZE_MAX) :
    parse_shape (.tuple (shape.map pyInt)) = some shape := by
  induction shape with
  | nil => rfl
  | cons d ds ih =>
    have hd : d ≤ USIZE_MAX := h d (List.mem_cons_self d ds)
    have hds : ∀ x ∈ ds, x ≤ USIZE_MAX := fun x hx => h x (List.mem_cons_of_mem d hx)
    have ihds := ih hds
    simp only [parse_shape, List.map_cons, List.mapM_cons] at ihds ⊢
    rw [show (pyInt d : PyValue) = PyValue.integer (d : Int) from rfl]
    have hcond : (0 ≤ (d : Int) ∧ (d : Int) ≤ (USIZE_MAX : Int)) := by
      constructor
      · exact Int.natCast_nonneg d
      · exact_mod_cast hd
    simp only [if_pos hcond]
    rw [show ((d : Int)).toNat = d from Int.toNat_natCast d]
    cases hm : (ds.map pyInt).mapM
        (fun e => match e with
          | PyValue.integer n => if 0 ≤ n ∧ n ≤ (USIZE_MAX : Int) then some n.toNat else none
          | _ => none) with
    | none => rw [hm] at ihds; simp at ihds
    | some l =>
      rw [hm] at ihds
      simp at ihds
      simp [hm, ihds]

/-- Stepping `from_py_value_loop` through the three rendered header
entries, leaving the shape-tuple parse symbolic. -/
theorem from_py_value_loop_header (s : List Nat) (b : Bool) (t : PyValue) :
    from_py_value_loop
        [(.string (ascii "descr"), .string s),
         (.string (ascii "fortran_order"), .boolean b),
         (.string (ascii "shape"), t)] none none none =
      (match parse_shape t with
       | some s2 => from_py_value_loop [] (some (.string s)) (some b) (some s2)
       | none => .error (.illegalValue "shape" t)) := rfl

theorem from_py_value_header (s : List Nat) (b : Bool) (t : PyValue) (sh : List Nat)
    (hps : parse_shape t = some sh) :
    Header.from_py_value (PyValue.dict
      [(.string (ascii "descr"), .string s),
       (.string (ascii "fortran_order"), .boolean b),
       (.string (ascii "shape"), t)]) = .ok ⟨.string s, b, sh⟩ := by
  rw [show Header.from_py_value (PyValue.dict
      [(.string (ascii "descr"), .string s),
       (.string (ascii "fortran_order"), .boolean b),
       (.string (ascii "shape"), t)]) =
    (match from_py_value_loop
        [(.string (ascii "descr"), .string s),
         (.string (ascii "fortran_order"), .boolean b),
         (.string (ascii "shape"), t)] none none none with
     | .error e => .error e
     | .ok (td, fo, shp) =>
       match td, fo, shp with
       | some td, some fo, some shp => .ok ⟨td, fo, shp⟩
       | none, _, _ => .error (.missingKey "descr")
       | _, none, _ => .error (.missingKey "fortran_order")
       | _, _, none => .error (.missingKey "shaper")) from rfl]
  rw [from_py_value_loop_header, hps]
  rfl

theorem checked_add_eq_some {a b c : Nat} (h : checked_add a b = some c) :
    c = a + b ∧ a + b ≤ USIZE_MAX := by
  unfold checked_add at h
  split at h
  · exact ⟨(Option.some_inj.mp h).symm, by assumption⟩
  · exact absurd h (by simp)

theorem format_header_len_eq_some {v : Version} {n : Nat} {bs : List Nat}
    (h : v.format_header_len n = some bs) :
    bs = leBytes v.header_len_num_bytes n ∧ n < 256 ^ v.header_len_num_bytes := by
  cases v <;>
    simp only [Version.format_header_len, Version.header_len_num_bytes] at h ⊢ <;>
    split at h <;>
    first
      | exact ⟨(Option.some_inj.mp h).symm, by omega⟩
      | exact absurd h (by simp)

theorem compute_lengths_eq_some {v : Version} {fmt : List Nat} {info : HeaderLengthInfo}
    (h : v.compute_lengths fmt = some info) :
    ∃ padding,
      info.total_len = (8 + v.header_len_num_bytes) + fmt.length + 1 + padding ∧
      padding < 64 ∧
      info.total_len % 64 = 0 ∧
      v.format_header_len (info.total_len - (8 + v.header_len_num_bytes)) =
        some info.formatted_header_len := by
  unfold Version.compute_lengths at h
  obtain ⟨a, ha, h⟩ := Option.bind_eq_some.mp h
  obtain ⟨u, hu, h⟩ := Option.bind_eq_some.mp h
  obtain ⟨t, ht, h⟩ := Option.bind_eq_some.mp h
  obtain ⟨fl, hfl, h⟩ := Option.bind_eq_some.mp h
  obtain ⟨ha1, ha2⟩ := checked_add_eq_some ha
  obtain ⟨hu1, hu2⟩ := checked_add_eq_some hu
  obtain ⟨ht1, ht2⟩ := checked_add_eq_some ht
  have hinfo : info = ⟨t, fl⟩ := (Option.some_inj.mp h).symm
  subst hinfo
  rw [show MAGIC_STRING.length = 6 from by decide, show VERSION_NUM_BYTES = 2 from rfl]
    at ha1
  rw [show NEWLINE_LEN = 1 from rfl] at hu1
  rw [show HEADER_DIVISOR = 64 from rfl] at ht1
  have hmod : u % 64 < 64 := Nat.mod_lt u (by omega)
  refine ⟨if u % 64 = 0 then 0 else 64 - u % 64, ?_, ?_, ?_, ?_⟩
  · show t = 8 + v.header_len_num_bytes + fmt.length + 1 + _
    by_cases h0 : u % 64 = 0 <;> simp only [h0, if_pos, if_neg, ite_true, ite_false] <;>
      simp [h0] at ht1 <;> omega
  · by_cases h0 : u % 64 = 0 <;> simp [h0] <;> omega
  · show t % 64 = 0
    by_cases h0 : u % 64 = 0 <;> simp [h0] at ht1 <;> omega
  · show Version.format_header_len v (t - (8 + v.header_len_num_bytes)) = some fl
    have heq : t - (8 + v.header_len_num_bytes) = t - (MAGIC_STRING.length +
        VERSION_NUM_BYTES + v.header_len_num_bytes) := by
      rw [show MAGIC_STRING.length = 6 from by decide, show VERSION_NUM_BYTES = 2 from rfl]
    rw [heq]
    exact hfl

theorem to_bytes_eq_ok {h : Header} {out : List Nat} (hw : Header.to_bytes h = .ok out) :
    ∃ (v : Version) (info : HeaderLengthInfo) (padding : Nat),
      (v = .V1_0 ∨ v = .V2_0) ∧
      v.compute_lengths (fmtValue h.to_py_value) = some info ∧
      out = MAGIC_STRING ++ [v.major_version, v.minor_version] ++
        info.formatted_header_len ++ fmtValue h.to_py_value ++
        List.replicate padding 32 ++ [10] ∧
      out.length = info.total_len ∧
      info.total_len = (8 + v.header_len_num_bytes) + (fmtValue h.to_py_value).length +
        1 + padding ∧
      info.total_len % 64 = 0 ∧
      info.formatted_header_len =
        leBytes v.header_len_num_bytes (info.total_len - (8 + v.header_len_num_bytes)) ∧
      info.total_len - (8 + v.header_len_num_bytes) < 256 ^ v.header_len_num_bytes := by
  have main : ∀ (v : Version) (info : HeaderLengthInfo),
      (v = Version.V1_0 ∨ v = Version.V2_0) →
      v.compute_lengths (fmtValue h.to_py_value) = some info →
      out = resizeFill (MAGIC_STRING ++ [v.major_version, v.minor_version] ++
          info.formatted_header_len ++ fmtValue h.to_py_value) (info.total_len - 1) 32 ++
          [10] →
      ∃ (v : Version) (info : HeaderLengthInfo) (padding : Nat),
        (v = .V1_0 ∨ v = .V2_0) ∧
        v.compute_lengths (fmtValue h.to_py_value) = some info ∧
        out = MAGIC_STRING ++ [v.major_version, v.minor_version] ++
          info.formatted_header_len ++ fmtValue h.to_py_value ++
          List.replicate padding 32 ++ [10] ∧
        out.length = info.total_len ∧
        info.total_len = (8 + v.header_len_num_bytes) + (fmtValue h.to_py_value).length +
          1 + padding ∧
        info.total_len % 64 = 0 ∧
        info.formatted_header_len =
          leBytes v.header_len_num_bytes (info.total_len - (8 + v.header_len_num_bytes)) ∧
        info.total_len - (8 + v.header_len_num_bytes) < 256 ^ v.header_len_num_bytes := by
    intro v info hv hcl hout
    obtain ⟨pad, hp1, hp2, hp3, hp4⟩ := compute_lengths_eq_some hcl
    obtain ⟨hfb, hbound⟩ := format_header_len_eq_some hp4
    have hflen : info.formatted_header_len.length = v.header_len_num_bytes := by
      rw [hfb, length_leBytes]
    have hpre : (MAGIC_STRING ++ [v.major_version, v.minor_version] ++
        info.formatted_header_len ++ fmtValue h.to_py_value).length =
        (8 + v.header_len_num_bytes) + (fmtValue h.to_py_value).length := by
      simp [MAGIC_STRING, hflen]
      omega
    have hresize : resizeFill (MAGIC_STRING ++ [v.major_version, v.minor_version] ++
        info.formatted_header_len ++ fmtValue h.to_py_value) (info.total_len - 1) 32 =
        MAGIC_STRING ++ [v.major_version, v.minor_version] ++
        info.formatted_header_len ++ fmtValue h.to_py_value ++ List.replicate pad 32 := by
      unfold resizeFill
      rw [List.take_of_length_le (by rw [hpre]; omega), hpre]
      have hp : info.total_len - 1 -
          ((8 + v.header_len_num_bytes) + (fmtValue h.to_py_value).length) = pad := by
        omega
      rw [hp]
    refine ⟨v, info, pad, hv, hcl, ?_, ?_, hp1, hp3, hfb, hbound⟩
    · rw [hout, hresize]
    · rw [hout, hresize]
      simp only [List.length_append, List.length_replicate, List.length_cons,
        List.length_nil]
      rw [show MAGIC_STRING.length = 6 from by decide, hflen]
      omega
  rw [show Header.to_bytes h =
    (match [Version.V1_0, Version.V2_0].findSome?
        (fun v => (v.compute_lengths (fmtValue h.to_py_value)).map fun info => (v, info)) with
    | none => .error .headerTooLong
    | some (v, info) =>
      .ok (resizeFill (MAGIC_STRING ++ [v.major_version, v.minor_version] ++
        info.formatted_header_len ++ fmtValue h.to_py_value)
        (info.total_len - 1) 32 ++ [10])) from rfl] at hw
  cases h1 : Version.V1_0.compute_lengths (fmtValue h.to_py_value) with
  | some info1 =>
    rw [show ([Version.V1_0, Version.V2_0].findSome? fun v =>
        (v.compute_lengths (fmtValue h.to_py_value)).map fun info => (v, info)) =
        some (Version.V1_0, info1) from by
      simp [List.findSome?_cons, h1]] at hw
    dsimp only at hw
    have hout := (Except.ok.inj hw).symm
    exact main _ _ (Or.inl rfl) h1 hout
  | none =>
    cases h2 : Version.V2_0.compute_lengths (fmtValue h.to_py_value) with
    | some info2 =>
      rw [show ([Version.V1_0, Version.V2_0].findSome? fun v =>
          (v.compute_lengths (fmtValue h.to_py_value)).map fun info => (v, info)) =
          some (Version.V2_0, info2) from by
        simp [List.findSome?_cons, h1, h2]] at hw
      dsimp only at hw
      have hout := (Except.ok.inj hw).symm
      exact main _ _ (Or.inr rfl) h2 hout
    | none =>
      rw [show ([Version.V1_0, Version.V2_0].findSome? fun v =>
          (v.compute_lengths (fmtValue h.to_py_value)).map fun info => (v, info)) =
          none from by
        simp [List.findSome?_cons, h1, h2]] at hw
      exact absurd hw (by simp)

theorem natDigits_ascii (n : Nat) : ∀ c ∈ natDigits n, c < 128 := by
  intro c hc
  have := natDigits_all n c hc
  omega

theorem escapeBytes_ascii (s : List Nat) (hs : ∀ c ∈ s, c < 128) :
    ∀ c ∈ escapeBytes s, c < 128 := by
  intro c hc
  simp only [escapeBytes, List.mem_flatMap] at hc
  obtain ⟨a, ha, hc⟩ := hc
  by_cases h : a = 39 ∨ a = 92
  · simp [h] at hc
    rcases hc with rfl | hc2
    · omega
    · exact hc2 ▸ hs a ha
  · simp [h] at hc
    exact hc ▸ hs a ha

theorem fmtString_ascii (s : List Nat) (hs : ∀ c ∈ s, c < 128) :
    ∀ c ∈ fmtValue (.string s), c < 128 := by
  intro c hc
  simp only [fmtValue, List.mem_cons, List.mem_append] at hc
  rcases hc with rfl | hc | hc
  · omega
  · exact escapeBytes_ascii s hs c hc
  · simp at hc
    omega

theorem fmtBool_ascii (b : Bool) : ∀ c ∈ fmtValue (.boolean b), c < 128 := by
  cases b <;> decide

theorem fmtPyInt_ascii (d : Nat) : ∀ c ∈ fmtValue (pyInt d), c < 128 := by
  rw [fmtValue_natInt]
  exact natDigits_ascii d

theorem fmtTupleInnerTail_nat_ascii (ns : List Nat) :
    ∀ c ∈ fmtTupleInnerTail (ns.map pyInt), c < 128 := by
  induction ns with
  | nil => intro c hc; simp [fmtTupleInnerTail] at hc
  | cons a tail ih =>
    cases tail with
    | nil =>
      intro c hc
      rw [List.map_cons, List.map_nil,
        show fmtTupleInnerTail [pyInt a] = fmtValue (pyInt a) from rfl] at hc
      exact fmtPyInt_ascii a c hc
    | cons b bs =>
      intro c hc
      rw [List.map_cons,
        show fmtTupleInnerTail (pyInt a :: ((b :: bs).map pyInt)) =
          fmtValue (pyInt a) ++ (44 :: 32 ::
            fmtTupleInnerTail ((b :: bs).map pyInt)) from rfl] at hc
      simp only [List.mem_append, List.mem_cons] at hc
      rcases hc with hc | rfl | rfl | hc
      · exact fmtPyInt_ascii a c hc
      · omega
      · omega
      · exact ih c hc

theorem fmtTupleInner_nat_ascii (ns : List Nat) :
    ∀ c ∈ fmtTupleInner (ns.map pyInt), c < 128 := by
  cases ns with
  | nil => intro c hc; simp [fmtTupleInner] at hc
  | cons a tail =>
    cases tail with
    | nil =>
      intro c hc
      rw [List.map_cons, List.map_nil,
        show fmtTupleInner [pyInt a] = fmtValue (pyInt a) ++ [44] from rfl] at hc
      simp only [List.mem_append, List.mem_singleton] at hc
      rcases hc with hc | rfl
      · exact fmtPyInt_ascii a c hc
      · omega
    | cons b bs =>
      intro c hc
      rw [List.map_cons,
        show fmtTupleInner (pyInt a :: ((b :: bs).map pyInt)) =
          fmtValue (pyInt a) ++ (44 :: 32 ::
            fmtTupleInnerTail ((b :: bs).map pyInt)) from rfl] at hc
      simp only [List.mem_append, List.mem_cons] at hc
      rcases hc with hc | rfl | rfl | hc
      · exact fmtPyInt_ascii a c hc
      · omega
      · omega
      · exact fmtTupleInnerTail_nat_ascii (b :: bs) c hc

theorem fmtTuple_nat_ascii (ns : List Nat) :
    ∀ c ∈ fmtValue (.tuple (ns.map pyInt)), c < 128 := by
  intro c hc
  simp only [fmtValue, List.mem_cons, List.mem_append] at hc
  rcases hc with rfl | hc | hc
  · omega
  · exact fmtTupleInner_nat_ascii ns c hc
  · simp at hc
    omega

/-- The rendered header record is pure ASCII whenever the descriptor
string is. -/
theorem fmtHeader_ascii (s : List Nat) (b : Bool) (shape : List Nat)
    (hs : ∀ c ∈ s, c < 128) :
    ∀ c ∈ fmtValue (Header.to_py_value ⟨.string s, b, shape⟩), c < 128 := by
  have key : ∀ (l1 l2 : List Nat), (∀ c ∈ l1, c < 128) → (∀ c ∈ l2, c < 128) →
      ∀ c ∈ l1 ++ l2, c < 128 := by
    intro l1 l2 h1 h2 c hc
    rcases List.mem_append.mp hc with hc | hc
    · exact h1 c hc
    · exact h2 c hc
  have keyc : ∀ (a : Nat) (l : List Nat), a < 128 → (∀ c ∈ l, c < 128) →
      ∀ c ∈ a :: l, c < 128 := by
    intro a l ha hl c hc
    rcases List.mem_cons.mp hc with rfl | hc
    · exact ha
    · exact hl c hc
  rw [show fmtValue (Header.to_py_value ⟨.string s, b, shape⟩) =
      123 :: (fmtDictInner
        [(PyValue.string (ascii "descr"), PyValue.string s),
         (PyValue.string (ascii "fortran_order"), PyValue.boolean b),
         (PyValue.string (ascii "shape"), PyValue.tuple (shape.map pyInt))] ++ [125])
      from rfl,
    show fmtDictInner
        [(PyValue.string (ascii "descr"), PyValue.string s),
         (PyValue.string (ascii "fortran_order"), PyValue.boolean b),
         (PyValue.string (ascii "shape"), PyValue.tuple (shape.map pyInt))] =
      fmtValue (.string (ascii "descr")) ++ (58 :: 32 :: (fmtValue (.string s) ++ (44 :: 32 ::
      (fmtValue (.string (ascii "fortran_order")) ++ (58 :: 32 ::
        (fmtValue (.boolean b) ++ (44 :: 32 ::
      (fmtValue (.string (ascii "shape")) ++ (58 :: 32 ::
        (fmtValue (.tuple (shape.map pyInt)) ++ (44 :: 32 :: ([] : List Nat))))))))))))
      from rfl]
  refine keyc _ _ (by omega) (key _ _ ?_ ?_)
  · refine key _ _ (fmtString_ascii _ (by decide)) ?_
    refine keyc _ _ (by omega) (keyc _ _ (by omega) ?_)
    refine key _ _ (fmtString_ascii s hs) ?_
    refine keyc _ _ (by omega) (keyc _ _ (by omega) ?_)
    refine key _ _ (fmtString_ascii _ (by decide)) ?_
    refine keyc _ _ (by omega) (keyc _ _ (by omega) ?_)
    refine key _ _ (fmtBool_ascii b) ?_
    refine keyc _ _ (by omega) (keyc _ _ (by omega) ?_)
    refine key _ _ (fmtString_ascii _ (by decide)) ?_
    refine keyc _ _ (by omega) (keyc _ _ (by omega) ?_)
    refine key _ _ (fmtTuple_nat_ascii shape) ?_
    refine keyc _ _ (by omega) (keyc _ _ (by omega) ?_)
    intro c hc
    simp at hc
  · intro c hc
    simp at hc
    omega

theorem version_from_bytes_roundtrip (v : Version) :
    Version.from_bytes v.major_version v.minor_version = .ok v := by
  cases v <;> rfl

theorem takeExact_two (a b : Nat) (r : List Nat) :
    takeExact 2 (a :: b :: r) = some ([a, b], r) := by
  unfold takeExact
  rw [if_pos (by simp only [List.length_cons]; omega)]
  rfl

theorem read_header_len_leBytes (v : Version) (n : Nat)
    (hn : n < 256 ^ v.header_len_num_bytes) (R : List Nat) :
    v.read_header_len (leBytes v.header_len_num_bytes n ++ R) = .ok (n, R) := by
  unfold Version.read_header_len
  have hL : (leBytes v.header_len_num_bytes n).length = v.header_len_num_bytes :=
    length_leBytes _ _
  generalize hG : leBytes v.header_len_num_bytes n = L at hL ⊢
  rw [show v.header_len_num_bytes = L.length from hL.symm, takeExact_append]
  dsimp only
  rw [← hG, fromLE_leBytes _ _ hn]

/-- Parsing back a formatted header consumes exactly the header's bytes
and reproduces the header. -/
theorem from_reader_to_bytes (s : List Nat) (b : Bool) (shape : List Nat)
    (out extra : List Nat)
    (hs : ∀ c ∈ s, c < 128)
    (hsh : ∀ d ∈ shape, d ≤ USIZE_MAX)
    (hw : Header.to_bytes ⟨.string s, b, shape⟩ = .ok out) :
    Header.from_reader (out ++ extra) = .ok (⟨.string s, b, shape⟩, extra) := by
  obtain ⟨v, info, pad, hv, hcl, hout, hlen, htot, hmod, hfb, hbound⟩ := to_bytes_eq_ok hw
  subst hout
  rw [hfb]
  simp only [List.append_assoc, List.cons_append, List.nil_append, List.singleton_append]
  unfold Header.from_reader
  rw [takeExact_append]
  dsimp only
  rw [if_neg (show ¬(MAGIC_STRING ≠ MAGIC_STRING) from by simp)]
  rw [show (VERSION_NUM_BYTES : Nat) = 2 from rfl, takeExact_two]
  dsimp only
  rw [version_from_bytes_roundtrip v]
  dsimp only
  rw [read_header_len_leBytes v _ hbound]
  dsimp only
  rw [show fmtValue (Header.to_py_value ⟨.string s, b, shape⟩) ++
      (List.replicate pad 32 ++ (10 :: extra)) =
      (fmtValue (Header.to_py_value ⟨.string s, b, shape⟩) ++
        (List.replicate pad 32 ++ [10])) ++ extra from by simp]
  rw [show info.total_len - (8 + v.header_len_num_bytes) =
      (fmtValue (Header.to_py_value ⟨.string s, b, shape⟩) ++
        (List.replicate pad 32 ++ [10])).length from by simp; omega]
  rw [takeExact_append]
  dsimp only
  rw [show fmtValue (Header.to_py_value ⟨.string s, b, shape⟩) ++
      (List.replicate pad 32 ++ [10]) =
      (fmtValue (Header.to_py_value ⟨.string s, b, shape⟩) ++
        List.replicate pad 32) ++ [10] from by simp]
  rw [List.getLast?_concat]
  dsimp only
  rw [List.dropLast_concat]
  have hall : ((fmtValue (Header.to_py_value ⟨.string s, b, shape⟩)) ++
      List.replicate pad 32).all (fun c => decide (c < 128)) = true := by
    simp only [List.all_append, Bool.and_eq_true, List.all_eq_true, decide_eq_true_eq]
    refine ⟨fmtHeader_ascii s b shape hs, fun c hc => ?_⟩
    rw [List.eq_of_mem_replicate hc]
    omega
  have hfinish : fromReaderFinish
      (fmtValue (Header.to_py_value ⟨.string s, b, shape⟩) ++ List.replicate pad 32)
      extra = .ok (⟨.string s, b, shape⟩, extra) := by
    unfold fromReaderFinish
    rw [pyParse_header]
    dsimp only
    rw [show Header.to_py_value ⟨.string s, b, shape⟩ = PyValue.dict
      [(.string (ascii "descr"), .string s),
       (.string (ascii "fortran_order"), .boolean b),
       (.string (ascii "shape"), .tuple (shape.map pyInt))] from rfl]
    rw [from_py_value_header s b (.tuple (shape.map pyInt)) shape
      (parse_shape_map shape hsh)]
  rcases hv with rfl | rfl <;>
    · dsimp only
      rw [if_pos hall]
      exact hfinish

/-! ## Element codec lemmas -/

theorem take_append_length {a b : List Nat} {n : Nat} (h : a.length = n) :
    (a ++ b).take n = a := by
  subst h
  exact List.take_left a b

theorem drop_append_length {a b : List Nat} {n : Nat} (h : a.length = n) :
    (a ++ b).drop n = b := by
  subst h
  exact List.drop_left a b

theorem takeExact_self (l : List Nat) : takeExact l.length l = some (l, []) := by
  have := takeExact_append l []
  simpa using this

theorem length_flatMap_leBytes (w : Nat) (data : List Nat) :
    (data.flatMap (leBytes w)).length = w * data.length := by
  induction data with
  | nil => simp
  | cons x xs ih =>
    simp only [List.flatMap_cons, List.length_append, length_leBytes, List.length_cons, ih,
      Nat.mul_succ]
    omega

theorem flatMap_leBytes_one (data : List Nat) (h : ∀ x ∈ data, x < 256) :
    data.flatMap (leBytes 1) = data := by
  induction data with
  | nil => rfl
  | cons x xs ih =>
    have hx : x < 256 := h x (List.mem_cons_self x xs)
    rw [List.flatMap_cons, show leBytes 1 x = [x % 256] from rfl, Nat.mod_eq_of_lt hx,
      ih fun y hy => h y (List.mem_cons_of_mem x hy), List.singleton_append]

theorem decodeChunks_flatMap (w : Nat) (data : List Nat)
    (h : ∀ x ∈ data, x < 256 ^ w) :
    decodeChunks w fromLE data.length (data.flatMap (leBytes w)) = data := by
  induction data with
  | nil => rfl
  | cons x xs ih =>
    simp only [List.flatMap_cons, List.length_cons]
    rw [show decodeChunks w fromLE (xs.length + 1) (leBytes w x ++ xs.flatMap (leBytes w)) =
      fromLE ((leBytes w x ++ xs.flatMap (leBytes w)).take w) ::
        decodeChunks w fromLE xs.length ((leBytes w x ++ xs.flatMap (leBytes w)).drop w)
      from rfl]
    rw [take_append_length (length_leBytes w x), drop_append_length (length_leBytes w x),
      fromLE_leBytes w x (h x (List.mem_cons_self x xs)),
      ih fun y hy => h y (List.mem_cons_of_mem x hy)]

theorem read_one_byte_roundtrip (descs : List (List Nat)) (d0 : List Nat)
    (hmem : descs.contains d0 = true) (data : List Nat) (hval : ∀ x ∈ data, x < 256) :
    read_one_byte descs (.string d0) data.length (data.flatMap (leBytes 1)) = .ok data := by
  unfold read_one_byte
  dsimp only
  rw [if_pos hmem, flatMap_leBytes_one data hval, takeExact_self]
  rfl

theorem read_multi_byte_roundtrip (w : Nat) (ld bd : List Nat) (data : List Nat)
    (hval : ∀ x ∈ data, x < 256 ^ w) :
    read_multi_byte w ld bd (.string ld) data.length (data.flatMap (leBytes w)) =
      .ok data := by
  unfold read_multi_byte
  dsimp only
  rw [if_pos rfl]
  rw [show w * data.length = (data.flatMap (leBytes w)).length from
    (length_flatMap_leBytes w data).symm]
  rw [takeExact_self]
  dsimp only
  rw [show check_for_extra_bytes [] = .ok () from rfl]
  rw [decodeChunks_flatMap w data hval]

theorem read_bool_roundtrip (data : List Nat) (hval : ∀ x ∈ data, x ≤ 1) :
    read_bool (.string (ascii "|b1")) data.length (data.flatMap (leBytes 1)) = .ok data := by
  unfold read_bool
  dsimp only
  rw [if_pos rfl, flatMap_leBytes_one data (fun x hx => by have := hval x hx; omega),
    takeExact_self]
  dsimp only
  rw [show check_for_extra_bytes [] = .ok () from rfl]
  rw [List.find?_eq_none.mpr
    (fun x hx => by have h1 := hval x hx; simp only [decide_eq_true_eq]; omega)]

/-- The element codec round-trip: writing any valid slice and reading it
back with the written descriptor reproduces the elements exactly. -/
theorem read_write_slice (E : ElemType) (data : List Nat)
    (hval : ∀ x ∈ data, x < 256 ^ E.width)
    (hbool : E = .bool → ∀ x ∈ data, x ≤ 1) :
    read_to_end_exact_vec E E.type_descriptor data.length (write_slice_bytes E data) =
      .ok data := by
  cases E with
  | i8 =>
    exact read_one_byte_roundtrip ElemType.i8.acceptedStrs (ascii "|i1") (by decide) data hval
  | u8 =>
    exact read_one_byte_roundtrip ElemType.u8.acceptedStrs (ascii "|u1") (by decide) data hval
  | bool => exact read_bool_roundtrip data (hbool rfl)
  | i16 => exact read_multi_byte_roundtrip 2 (ascii "<i2") (ascii ">i2") data hval
  | i32 => exact read_multi_byte_roundtrip 4 (ascii "<i4") (ascii ">i4") data hval
  | i64 => exact read_multi_byte_roundtrip 8 (ascii "<i8") (ascii ">i8") data hval
  | u16 => exact read_multi_byte_roundtrip 2 (ascii "<u2") (ascii ">u2") data hval
  | u32 => exact read_multi_byte_roundtrip 4 (ascii "<u4") (ascii ">u4") data hval
  | u64 => exact read_multi_byte_roundtrip 8 (ascii "<u8") (ascii ">u8") data hval
  | f32 => exact read_multi_byte_roundtrip 4 (ascii "<f4") (ascii ">f4") data hval
  | f64 => exact read_multi_byte_roundtrip 8 (ascii "<f8") (ascii ">f8") data hval

theorem takeExact_lt {n : Nat} {input : List Nat} (h : n ≤ input.length) :
    takeExact n input = some (input.take n, input.drop n) := by
  unfold takeExact
  rw [if_pos h]

theorem check_for_extra_bytes_pos {r : List Nat} (h : 0 < r.length) :
    check_for_extra_bytes r = .error (.extraBytes r.length) := by
  unfold check_for_extra_bytes
  rw [if_neg (by omega)]

theorem read_one_byte_extra (descs : List (List Nat)) (s : List Nat) (len : Nat)
    (input : List Nat) (hmem : descs.contains s = true) (hlt : len < input.length) :
    read_one_byte descs (.string s) len input =
      .error (.extraBytes (input.length - len)) := by
  unfold read_one_byte
  dsimp only
  rw [if_pos hmem, takeExact_lt (by omega)]
  dsimp only
  rw [check_for_extra_bytes_pos (by simp only [List.length_drop]; omega)]
  dsimp only
  rw [List.length_drop]

theorem read_multi_byte_extra (w : Nat) (ld bd s : List Nat) (len : Nat)
    (input : List Nat) (hs : s = ld ∨ s = bd) (hlt : w * len < input.length) :
    read_multi_byte w ld bd (.string s) len input =
      .error (.extraBytes (input.length - w * len)) := by
  unfold read_multi_byte
  dsimp only
  by_cases h1 : s = ld
  · rw [if_pos h1, takeExact_lt (by omega)]
    dsimp only
    rw [check_for_extra_bytes_pos (by simp only [List.length_drop]; omega)]
    dsimp only
    rw [List.length_drop]
  · rcases hs with rfl | rfl
    · exact absurd rfl h1
    · rw [if_neg h1, if_pos rfl, takeExact_lt (by omega)]
      dsimp only
      rw [check_for_extra_bytes_pos (by simp only [List.length_drop]; omega)]
      dsimp only
      rw [List.length_drop]

theorem read_bool_extra (len : Nat) (input : List Nat) (hlt : len < input.length) :
    read_bool (.string (ascii "|b1")) len input =
      .error (.extraBytes (input.length - len)) := by
  unfold read_bool
  dsimp only
  rw [if_pos rfl, takeExact_lt (by omega)]
  dsimp only
  rw [check_for_extra_bytes_pos (by simp only [List.length_drop]; omega)]
  dsimp only
  rw [List.length_drop]

theorem read_one_byte_wrong (descs : List (List Nat)) (s : List Nat) (len : Nat)
    (input : List Nat) (hmem : descs.contains s = false) :
    read_one_byte descs (.string s) len input =
      .error (.wrongDescriptor (.string s)) := by
  unfold read_one_byte
  dsimp only
  rw [if_neg (by rw [hmem]; exact Bool.false_ne_true)]

theorem read_multi_byte_wrong (w : Nat) (ld bd s : List Nat) (len : Nat)
    (input : List Nat) (h1 : s ≠ ld) (h2 : s ≠ bd) :
    read_multi_byte w ld bd (.string s) len input =
      .error (.wrongDescriptor (.string s)) := by
  unfold read_multi_byte
  dsimp only
  rw [if_neg h1, if_neg h2]

theorem read_bool_wrong (s : List Nat) (len : Nat) (input : List Nat)
    (h : s ≠ ascii "|b1") :
    read_bool (.string s) len input = .error (.wrongDescriptor (.string s)) := by
  unfold read_bool
  dsimp only
  rw [if_neg h]

/-- The descriptor string each type writes (little-endian platform). -/
def ElemType.descBytes : ElemType → List Nat
  | .i8 => ascii "|i1"
  | .u8 => ascii "|u1"
  | .i16 => ascii "<i2"
  | .i32 => ascii "<i4"
  | .i64 => ascii "<i8"
  | .u16 => ascii "<u2"
  | .u32 => ascii "<u4"
  | .u64 => ascii "<u8"
  | .f32 => ascii "<f4"
  | .f64 => ascii "<f8"
  | .bool => ascii "|b1"

theorem type_descriptor_descBytes (E : ElemType) :
    E.type_descriptor = .string E.descBytes := by
  cases E <;> rfl

theorem descBytes_ascii (E : ElemType) : ∀ c ∈ E.descBytes, c < 128 := by
  cases E <;> decide

theorem to_bytes_def (h : Header) :
    Header.to_bytes h =
      (match [Version.V1_0, Version.V2_0].findSome?
          (fun v => (v.compute_lengths (fmtValue h.to_py_value)).map fun info => (v, info))
        with
      | none => .error .headerTooLong
      | some (v, info) =>
        .ok (resizeFill (MAGIC_STRING ++ [v.major_version, v.minor_version] ++
          info.formatted_header_len ++ fmtValue h.to_py_value)
          (info.total_len - 1) 32 ++ [10])) := rfl

theorem resize_build (v : Version) (info : HeaderLengthInfo) (fmt : List Nat)
    (hcl : v.compute_lengths fmt = some info) :
    ∃ pad, resizeFill (MAGIC_STRING ++ [v.major_version, v.minor_version] ++
        info.formatted_header_len ++ fmt) (info.total_len - 1) 32 ++ [10] =
      MAGIC_STRING ++ [v.major_version, v.minor_version] ++ info.formatted_header_len ++
        fmt ++ List.replicate pad 32 ++ [10] := by
  obtain ⟨pad, hp1, hp2, hp3, hp4⟩ := compute_lengths_eq_some hcl
  obtain ⟨hfb, hbound⟩ := format_header_len_eq_some hp4
  have hflen : info.formatted_header_len.length = v.header_len_num_bytes := by
    rw [hfb, length_leBytes]
  have hpre : (MAGIC_STRING ++ [v.major_version, v.minor_version] ++
      info.formatted_header_len ++ fmt).length =
      (8 + v.header_len_num_bytes) + fmt.length := by
    simp [MAGIC_STRING, hflen]
    omega
  refine ⟨pad, ?_⟩
  unfold resizeFill
  rw [List.take_of_length_le (by rw [hpre]; omega), hpre]
  rw [show info.total_len - 1 - ((8 + v.header_len_num_bytes) + fmt.length) = pad from
    by omega]

/-!
## The claims

Each claim of the specification is settled by one theorem below, with a
closed witness instantiating every hypothesis at concrete inputs.
-/

/-- **C8.** Streaming over-fill atomicity: on every open stream with
declared total `t` and written counter `w`, a `write_slice` of a chunk of
length `n` with `w + n > t` fails with `TooManyElements (t, w + n)` and
leaves the stream (in particular the written counter) unchanged;
otherwise the chunk's bytes are appended, the counter advances to
`w + n`, and `w + n` is returned. -/
theorem c8_stream_write_slice (E : ElemType) (s : NpyOutStream) (slice : List Nat) :
    (s.written_elems + slice.length > s.tot_elems →
      s.write_slice E slice =
        (.error (.writeData (.tooManyElements s.tot_elems
          (s.written_elems + slice.length))), s)) ∧
    (s.written_elems + slice.length ≤ s.tot_elems →
      s.write_slice E slice =
        (.ok (s.written_elems + slice.length),
          { s with
            writer := s.writer ++ write_slice_bytes E slice,
            written_elems := s.written_elems + slice.length })) := by
  constructor
  · intro hgt
    unfold NpyOutStream.write_slice
    rw [if_pos hgt]
  · intro hle
    unfold NpyOutStream.write_slice
    rw [if_neg (by omega)]

/-- Witness for C8, following the spec's own example: a stream declared
for 6 elements with 2 already written rejects a 5-element chunk with
`TooManyElements(6, 7)` and keeps the counter at 2, and accepts a
4-element chunk, advancing to 6. -/
theorem c8_stream_write_slice_witness :
    (NpyOutStream.write_slice .f32 ⟨6, 2, [], false⟩ [10, 20, 30, 40, 50] =
      (.error (.writeData (.tooManyElements 6 7)), ⟨6, 2, [], false⟩)) ∧
    (NpyOutStream.write_slice .i8 ⟨6, 2, [], false⟩ [1, 2, 3, 4] =
      (.ok 6, ⟨6, 6, [1, 2, 3, 4], false⟩)) := by
  constructor
  · exact (c8_stream_write_slice .f32 ⟨6, 2, [], false⟩ [10, 20, 30, 40, 50]).1 (by decide)
  · exact (c8_stream_write_slice .i8 ⟨6, 2, [], false⟩ [1, 2, 3, 4]).2 (by decide)

/-- **C9.** Streaming close contract: closing a stream with
`written < total` fails with `TooFewElements (total, written)`; closing a
stream with `written = total` succeeds, and such a stream reports
`finished = true`. -/
theorem c9_stream_close (s : NpyOutStream) :
    (s.written_elems < s.tot_elems →
      (s.close).1 = .error (.tooFewElements s.tot_elems s.written_elems)) ∧
    (s.written_elems = s.tot_elems →
      (s.close).1 = .ok () ∧ s.finished = true) := by
  constructor
  · intro hlt
    unfold NpyOutStream.close
    dsimp only
    rw [if_pos hlt]
  · intro heq
    constructor
    · unfold NpyOutStream.close
      dsimp only
      rw [if_neg (by omega)]
    · unfold NpyOutStream.finished
      simp [heq]

/-- Witness for C9, following the spec's example: closing after 5 of 6
fails with `TooFewElements(6, 5)`; a stream with 6 of 6 reports
`finished = true` and closes successfully. -/
theorem c9_stream_close_witness :
    ((NpyOutStream.close ⟨6, 5, [], false⟩).1 = .error (.tooFewElements 6 5)) ∧
    ((NpyOutStream.close ⟨6, 6, [], false⟩).1 = .ok () ∧
      NpyOutStream.finished ⟨6, 6, [], false⟩ = true) := by
  constructor
  · exact (c9_stream_close ⟨6, 5, [], false⟩).1 (by decide)
  · exact (c9_stream_close ⟨6, 6, [], false⟩).2 (by decide)

/-- **C4** (the claim is right; the code diverges).  A truncated payload
makes the element read fail with the generic I/O error of kind
`UnexpectedEof` (`ReadDataError::Io`), not with the dedicated
`MissingData` variant: the source declares and documents `MissingData`
for exactly this condition but never constructs it.  Evaluated at the
failing inputs: an `i32` read of one element from a 3-byte payload and a
`bool` read of five elements from a 4-byte payload. -/
theorem c4_truncation_io_not_missing :
    read_to_end_exact_vec .i32 (.string (ascii "<i4")) 1 [0, 0, 0] =
      .error .ioError ∧
    read_to_end_exact_vec .bool (.string (ascii "|b1")) 5 [0, 1, 0, 0] =
      .error .ioError ∧
    (Except.error ReadDataError.ioError :
      Except ReadDataError (List Nat)) ≠ .error .missingData := by
  refine ⟨rfl, rfl, ?_⟩
  intro hcontra
  exact absurd (Except.error.inj hcontra) (by intro h; cases h)

/-- **C6.** Boolean decode validity: with the `|b1` descriptor and an
input of exactly the requested count of bytes, (a) if every byte is 0 or
1 the decoder succeeds and returns exactly those bytes — the bit
patterns of the corresponding `false`/`true` values (Rust guarantees
`false = 0x00`, `true = 0x01`); (b) if the first byte greater than 1 is
`b0`, the decode fails with `ParseBoolError b0` — an offending input
byte — and produces no values, the whole buffer having been read and
checked before any value is produced. -/
theorem c6_bool_decode (input : List Nat) (len : Nat) (hlen : input.length = len) :
    ((∀ x ∈ input, x ≤ 1) →
      read_to_end_exact_vec .bool (.string (ascii "|b1")) len input = .ok input) ∧
    (∀ b0, input.find? (fun b => decide (1 < b)) = some b0 →
      read_to_end_exact_vec .bool (.string (ascii "|b1")) len input =
        .error (.parseBoolError b0) ∧ b0 ∈ input ∧ 1 < b0) := by
  constructor
  · intro hval
    show read_bool (.string (ascii "|b1")) len input = .ok input
    unfold read_bool
    dsimp only
    rw [if_pos rfl, ← hlen, takeExact_self]
    dsimp only
    rw [show check_for_extra_bytes [] = .ok () from rfl]
    rw [List.find?_eq_none.mpr
      (fun x hx => by have h1 := hval x hx; simp only [decide_eq_true_eq]; omega)]
  · intro b0 hfind
    refine ⟨?_, List.mem_of_find?_eq_some hfind, by
      have := List.find?_some hfind
      simpa using this⟩
    show read_bool (.string (ascii "|b1")) len input = .error (.parseBoolError b0)
    unfold read_bool
    dsimp only
    rw [if_pos rfl, ← hlen, takeExact_self]
    dsimp only
    rw [show check_for_extra_bytes [] = .ok () from rfl, hfind]

/-- Witness for C6, the spec's own vectors: `[0,1,0,0,1]` decodes to the
patterns of `[false,true,false,false,true]`; `[0,1,5,0,1]` fails with
`ParseBoolError 5`. -/
theorem c6_bool_decode_witness :
    (read_to_end_exact_vec .bool (.string (ascii "|b1")) 5 [0, 1, 0, 0, 1] =
      .ok [0, 1, 0, 0, 1]) ∧
    (read_to_end_exact_vec .bool (.string (ascii "|b1")) 5 [0, 1, 5, 0, 1] =
      .error (.parseBoolError 5) ∧ 5 ∈ [0, 1, 5, 0, 1] ∧ 1 < 5) := by
  constructor
  · exact (c6_bool_decode [0, 1, 0, 0, 1] 5 rfl).1 (by decide)
  · exact (c6_bool_decode [0, 1, 5, 0, 1] 5 rfl).2 5 (by decide)

theorem not_mem_of_contains_false {l : List (List Nat)} {s : List Nat}
    (h : l.contains s = false) : s ∉ l := by
  intro hm
  rw [show l.contains s = l.elem s from rfl] at h
  rw [List.elem_iff.mpr hm] at h
  cases h

theorem or_of_contains_true {a b s : List Nat}
    (h : ([a, b] : List (List Nat)).contains s = true) : s = a ∨ s = b := by
  rw [show ([a, b] : List (List Nat)).contains s = ([a, b] : List (List Nat)).elem s
    from rfl] at h
  have := List.elem_iff.mp h
  simpa using this

/-- **C7.** Descriptor strictness: (a) for every supported element type,
a header descriptor that is not an exact match for one of that type's
accepted descriptor strings (including the one-byte legacy aliases)
makes the element read fail with `WrongDescriptor` carrying the
offending descriptor, whatever the payload; (b) the accepted descriptor
sets of distinct element types are pairwise disjoint, so no descriptor
of one type is ever read as another — no numeric coercion or
reinterpretation can occur. -/
theorem c7_descriptor_strict :
    (∀ (E : ElemType) (desc : PyValue) (len : Nat) (input : List Nat),
      acceptedDesc E desc = false →
      read_to_end_exact_vec E desc len input = .error (.wrongDescriptor desc)) ∧
    (∀ (E F : ElemType), E ≠ F → ∀ s ∈ F.acceptedStrs,
      acceptedDesc E (.string s) = false) := by
  constructor
  · intro E desc len input hacc
    cases E <;> cases desc <;>
      first
      | rfl
      | (rename_i s
         simp only [acceptedDesc] at hacc
         first
         | exact read_one_byte_wrong _ s len input hacc
         | (refine read_bool_wrong s len input ?_
            intro hcontra
            exact absurd hacc (by subst hcontra; decide))
         | (have hmem := not_mem_of_contains_false hacc
            simp only [ElemType.acceptedStrs, List.mem_cons, List.not_mem_nil,
              or_false, not_or] at hmem
            exact read_multi_byte_wrong _ _ _ s len input hmem.1 hmem.2))
  · decide

/-- Witness for C7: an `i32` reader rejects the `f64` descriptor `<f8`
with `WrongDescriptor`, and `<f8` is accepted by `f64` but by no other
type. -/
theorem c7_descriptor_strict_witness :
    (read_to_end_exact_vec .i32 (.string (ascii "<f8")) 0 [] =
      .error (.wrongDescriptor (.string (ascii "<f8")))) ∧
    acceptedDesc .i32 (.string (ascii "<f8")) = false := by
  have h : acceptedDesc ElemType.i32 (.string (ascii "<f8")) = false := by decide
  exact ⟨c7_descriptor_strict.1 .i32 (.string (ascii "<f8")) 0 [] h, h⟩

/-- **C5.** Trailing-bytes detection: (a) for every supported element
type and accepted descriptor, if the source holds `n > 0` bytes beyond
the requested element count the read fails with `ExtraBytes n`, where
`n` is exactly the surplus byte count; (b) when the source is exactly
exhausted (here: it is exactly a written slice) the read succeeds. -/
theorem c5_extra_bytes :
    (∀ (E : ElemType) (desc : PyValue) (len : Nat) (input : List Nat),
      acceptedDesc E desc = true → E.width * len < input.length →
      read_to_end_exact_vec E desc len input =
        .error (.extraBytes (input.length - E.width * len))) ∧
    (∀ (E : ElemType) (data : List Nat),
      (∀ x ∈ data, x < 256 ^ E.width) → (E = .bool → ∀ x ∈ data, x ≤ 1) →
      read_to_end_exact_vec E E.type_descriptor data.length (write_slice_bytes E data) =
        .ok data) := by
  constructor
  · intro E desc len input hacc hlt
    cases E <;> cases desc <;>
      first
      | (simp only [acceptedDesc] at hacc; cases hacc)
      | (rename_i s
         simp only [acceptedDesc] at hacc
         simp only [ElemType.width] at hlt ⊢
         first
         | (rw [one_mul] at hlt ⊢
            exact read_one_byte_extra _ s len input hacc hlt)
         | (have hor := or_of_contains_true hacc
            exact read_multi_byte_extra _ _ _ s len input hor hlt)
         | (have hs : s = ascii "|b1" := by
              have h2 : s ∈ ElemType.bool.acceptedStrs := List.elem_iff.mp hacc
              simpa [ElemType.acceptedStrs] using h2
            subst hs
            rw [one_mul] at hlt ⊢
            exact read_bool_extra len input hlt))
  · exact read_write_slice

/-- Witness for C5: a `u16` read of 2 elements from a 5-byte payload
fails with `ExtraBytes 1`; writing `[1, 2, 3]` as `i64` and reading it
back with the written descriptor succeeds exactly. -/
theorem c5_extra_bytes_witness :
    (read_to_end_exact_vec .u16 (.string (ascii "<u2")) 2 [1, 0, 2, 0, 7] =
      .error (.extraBytes 1)) ∧
    (read_to_end_exact_vec .i64 ElemType.i64.type_descriptor 3
      (write_slice_bytes .i64 [1, 2, 3]) = .ok [1, 2, 3]) := by
  constructor
  · exact c5_extra_bytes.1 .u16 (.string (ascii "<u2")) 2 [1, 0, 2, 0, 7]
      (by decide) (by decide)
  · exact c5_extra_bytes.2 .i64 [1, 2, 3] (by decide) (by intro h; cases h)

/-- **C2.** Alignment contract of the header formatter: every
successfully formatted header has total byte length divisible by 64, its
very last byte is the newline `0x0A`, and it decomposes as magic bytes,
version bytes, length field, the rendered record, a run of ASCII space
(`0x20`) padding bytes, and the final newline — so every padding byte
before the newline is a space. -/
theorem c2_header_alignment (h : Header) (out : List Nat)
    (hw : Header.to_bytes h = .ok out) :
    out.length % 64 = 0 ∧ out.getLast? = some 10 ∧
    ∃ (v : Version) (fhl : List Nat) (pad : Nat),
      out = MAGIC_STRING ++ [v.major_version, v.minor_version] ++ fhl ++
        fmtValue h.to_py_value ++ List.replicate pad 32 ++ [10] := by
  obtain ⟨v, info, pad, hv, hcl, hout, hlen, htot, hmod, hfb, hbound⟩ := to_bytes_eq_ok hw
  refine ⟨by rw [hlen]; exact hmod, ?_, v, info.formatted_header_len, pad, hout⟩
  rw [hout]
  exact List.getLast?_concat _

/-- A small concrete header for the C2 witness. -/
def c2hdr : Header := ⟨.string (ascii "<i4"), false, [2, 3]⟩

/-- The C2 witness header's formatted bytes. -/
def c2out : List Nat := (Header.to_bytes c2hdr).toOption.getD []

/-- Witness for C2 at a concrete `i32` header of shape (2, 3). -/
theorem c2_header_alignment_witness :
    c2out.length % 64 = 0 ∧ c2out.getLast? = some 10 ∧
    ∃ (v : Version) (fhl : List Nat) (pad : Nat),
      c2out = MAGIC_STRING ++ [v.major_version, v.minor_version] ++ fhl ++
        fmtValue c2hdr.to_py_value ++ List.replicate pad 32 ++ [10] :=
  c2_header_alignment c2hdr c2out rfl

/-- When the record is already too long for a version's length field
(the field holds values below `256 ^ w`), `compute_lengths` fails. -/
theorem compute_lengths_none_of_big {v : Version} {fmt : List Nat}
    (h : 256 ^ v.header_len_num_bytes ≤ fmt.length + 1) :
    v.compute_lengths fmt = none := by
  cases hc : v.compute_lengths fmt with
  | none => rfl
  | some info =>
    obtain ⟨pad, hp1, hp2, hp3, hp4⟩ := compute_lengths_eq_some hc
    obtain ⟨hfb, hbound⟩ := format_header_len_eq_some hp4
    rw [hp1] at hbound
    omega

/-- Concrete forward evaluation of `compute_lengths` for version 2.0 at
a 70052-byte record. -/
theorem compute_lengths_V2_70052 {fmt : List Nat} (hl : fmt.length = 70052) :
    Version.V2_0.compute_lengths fmt = some ⟨70080, leBytes 4 70068⟩ := by
  unfold Version.compute_lengths
  rw [hl]
  exact Option.bind_eq_some.mpr ⟨70064, by decide,
    Option.bind_eq_some.mpr ⟨70065, by decide,
      Option.bind_eq_some.mpr ⟨70080, by decide,
        Option.bind_eq_some.mpr ⟨leBytes 4 70068, by decide, rfl⟩⟩⟩⟩

theorem escape_replicate97 (n : Nat) :
    escapeBytes (List.replicate n 97) = List.replicate n 97 := by
  induction n with
  | zero => rfl
  | succ n ih =>
    rw [List.replicate_succ]
    simp only [escapeBytes, List.flatMap_cons] at ih ⊢
    rw [if_neg (by decide), ih, List.singleton_append]

/-- Record length of a header whose descriptor is `n` copies of `a`
(0x61) and whose shape is empty: `n` plus 52 framing bytes. -/
theorem fmt_header_length_repl97 (n : Nat) :
    (fmtValue (Header.to_py_value
      ⟨.string (List.replicate n 97), false, []⟩)).length = n + 52 := by
  rw [show fmtValue (Header.to_py_value ⟨.string (List.replicate n 97), false, []⟩) =
      123 :: (fmtDictInner
        [(PyValue.string (ascii "descr"), PyValue.string (List.replicate n 97)),
         (PyValue.string (ascii "fortran_order"), PyValue.boolean false),
         (PyValue.string (ascii "shape"),
           PyValue.tuple (([] : List Nat).map pyInt))] ++ [125])
      from rfl,
    show fmtDictInner
        [(PyValue.string (ascii "descr"), PyValue.string (List.replicate n 97)),
         (PyValue.string (ascii "fortran_order"), PyValue.boolean false),
         (PyValue.string (ascii "shape"),
           PyValue.tuple (([] : List Nat).map pyInt))] =
      fmtValue (.string (ascii "descr")) ++ (58 :: 32 ::
        (fmtValue (.string (List.replicate n 97)) ++ (44 :: 32 ::
      (fmtValue (.string (ascii "fortran_order")) ++ (58 :: 32 ::
        (fmtValue (.boolean false) ++ (44 :: 32 ::
      (fmtValue (.string (ascii "shape")) ++ (58 :: 32 ::
        (fmtValue (.tuple (([] : List Nat).map pyInt)) ++
          (44 :: 32 :: ([] : List Nat))))))))))))
      from rfl]
  simp only [List.length_cons, List.length_append, List.length_nil]
  rw [show (fmtValue (PyValue.string (ascii "descr"))).length = 7 from by decide,
    show (fmtValue (PyValue.string (ascii "fortran_order"))).length = 15 from by decide,
    show (fmtValue (PyValue.boolean false)).length = 5 from by decide,
    show (fmtValue (PyValue.string (ascii "shape"))).length = 7 from by decide,
    show (fmtValue (PyValue.tuple (([] : List Nat).map pyInt))).length = 2 from by decide,
    show (fmtValue (PyValue.string (List.replicate n 97))).length = n + 2 from by
      simp only [fmtValue, List.length_cons, List.length_append, List.length_nil,
        escape_replicate97, List.length_replicate]]
  omega

/-- **C3.** Version selection when formatting a header: when the
computed header-length value fits version 1.0's two-byte length field
(`compute_lengths` succeeds for `V1_0`), the header is written as
version 1.0 — byte 6, the major-version byte, is 1; when it overflows
the two-byte field but fits the four-byte field, it is written as
version 2.0 — byte 6 is 2; when it fits no version's field, formatting
fails with `HeaderTooLong`. -/
theorem c3_version_selection (h : Header) :
    ((Version.V1_0.compute_lengths (fmtValue h.to_py_value)).isSome = true →
      ∃ out, Header.to_bytes h = .ok out ∧ out.get? 6 = some 1) ∧
    ((Version.V1_0.compute_lengths (fmtValue h.to_py_value)).isSome = false →
      (Version.V2_0.compute_lengths (fmtValue h.to_py_value)).isSome = true →
      ∃ out, Header.to_bytes h = .ok out ∧ out.get? 6 = some 2) ∧
    ((Version.V1_0.compute_lengths (fmtValue h.to_py_value)).isSome = false →
      (Version.V2_0.compute_lengths (fmtValue h.to_py_value)).isSome = false →
      Header.to_bytes h = .error .headerTooLong) := by
  refine ⟨?_, ?_, ?_⟩
  · intro h1
    obtain ⟨info, hinfo⟩ := Option.isSome_iff_exists.mp h1
    obtain ⟨pad, hre⟩ := resize_build _ _ _ hinfo
    refine ⟨resizeFill (MAGIC_STRING ++ [Version.V1_0.major_version,
        Version.V1_0.minor_version] ++ info.formatted_header_len ++
        fmtValue h.to_py_value) (info.total_len - 1) 32 ++ [10], ?_, ?_⟩
    · rw [to_bytes_def h, show ([Version.V1_0, Version.V2_0].findSome? fun v =>
        (v.compute_lengths (fmtValue h.to_py_value)).map fun info => (v, info)) =
        some (Version.V1_0, info) from by simp [List.findSome?_cons, hinfo]]
    · rw [hre]
      rfl
  · intro h1 h2
    have hn1 : Version.V1_0.compute_lengths (fmtValue h.to_py_value) = none := by
      cases hc : Version.V1_0.compute_lengths (fmtValue h.to_py_value)
      · rfl
      · rw [hc] at h1; cases h1
    obtain ⟨info, hinfo⟩ := Option.isSome_iff_exists.mp h2
    obtain ⟨pad, hre⟩ := resize_build _ _ _ hinfo
    refine ⟨resizeFill (MAGIC_STRING ++ [Version.V2_0.major_version,
        Version.V2_0.minor_version] ++ info.formatted_header_len ++
        fmtValue h.to_py_value) (info.total_len - 1) 32 ++ [10], ?_, ?_⟩
    · rw [to_bytes_def h, show ([Version.V1_0, Version.V2_0].findSome? fun v =>
        (v.compute_lengths (fmtValue h.to_py_value)).map fun info => (v, info)) =
        some (Version.V2_0, info) from by simp [List.findSome?_cons, hn1, hinfo]]
    · rw [hre]
      rfl
  · intro h1 h2
    have hn1 : Version.V1_0.compute_lengths (fmtValue h.to_py_value) = none := by
      cases hc : Version.V1_0.compute_lengths (fmtValue h.to_py_value)
      · rfl
      · rw [hc] at h1; cases h1
    have hn2 : Version.V2_0.compute_lengths (fmtValue h.to_py_value) = none := by
      cases hc : Version.V2_0.compute_lengths (fmtValue h.to_py_value)
      · rfl
      · rw [hc] at h2; cases h2
    rw [to_bytes_def h, show ([Version.V1_0, Version.V2_0].findSome? fun v =>
      (v.compute_lengths (fmtValue h.to_py_value)).map fun info => (v, info)) =
      none from by simp [List.findSome?_cons, hn1, hn2]]

/-- The C3 witness headers: a small one (version 1.0), one with a
70000-byte descriptor (overflows the 2-byte field, fits the 4-byte one),
and one with a 2^32-byte descriptor (fits no field). -/
def c3hdrA : Header := ⟨.string (ascii "<i4"), false, []⟩

def c3hdrB : Header := ⟨.string (List.replicate 70000 97), false, []⟩

def c3hdrC : Header := ⟨.string (List.replicate 4294967296 97), false, []⟩

/-- Witness for C3 at the three headers. -/
theorem c3_version_selection_witness :
    (∃ out, Header.to_bytes c3hdrA = .ok out ∧ out.get? 6 = some 1) ∧
    (∃ out, Header.to_bytes c3hdrB = .ok out ∧ out.get? 6 = some 2) ∧
    Header.to_bytes c3hdrC = .error .headerTooLong := by
  have hlB : (fmtValue c3hdrB.to_py_value).length = 70052 :=
    fmt_header_length_repl97 70000
  have hlC : (fmtValue c3hdrC.to_py_value).length = 4294967348 := by
    rw [show (4294967348 : Nat) = 4294967296 + 52 from by norm_num]
    exact fmt_header_length_repl97 4294967296
  have hB1 : (Version.V1_0.compute_lengths (fmtValue c3hdrB.to_py_value)).isSome =
      false := by
    rw [@compute_lengths_none_of_big Version.V1_0 (fmtValue c3hdrB.to_py_value)
      (by rw [hlB]; decide)]
    rfl
  have hB2 : (Version.V2_0.compute_lengths (fmtValue c3hdrB.to_py_value)).isSome =
      true := by
    rw [compute_lengths_V2_70052 hlB]
    rfl
  have hC1 : (Version.V1_0.compute_lengths (fmtValue c3hdrC.to_py_value)).isSome =
      false := by
    rw [@compute_lengths_none_of_big Version.V1_0 (fmtValue c3hdrC.to_py_value)
      (by rw [hlC]; decide)]
    rfl
  have hC2 : (Version.V2_0.compute_lengths (fmtValue c3hdrC.to_py_value)).isSome =
      false := by
    rw [@compute_lengths_none_of_big Version.V2_0 (fmtValue c3hdrC.to_py_value)
      (by rw [hlC]; decide)]
    rfl
  refine ⟨?_, ?_, ?_⟩
  · exact (c3_version_selection c3hdrA).1 (by decide)
  · exact (c3_version_selection c3hdrB).2.1 hB1 hB2
  · exact (c3_version_selection c3hdrC).2.2 hC1 hC2

/-- **C10.** Implicit read-side size guard: whenever the parsed header's
shape has a dimension product that overflows `usize` (`size_checked`
returns `none`) or exceeds `isize::MAX`, `read_npy` fails with the
distinct `LengthOverflow` condition — for every element type and
whatever bytes follow the header, so before any element data is
decoded. -/
theorem c10_length_overflow (E : ElemType) (input : List Nat) (h : Header)
    (rest : List Nat)
    (hfr : Header.from_reader input = .ok (h, rest))
    (hbig : ∀ len, size_checked h.shape = some len → ISIZE_MAX < len) :
    read_npy E input = .error .lengthOverflow := by
  unfold read_npy
  rw [hfr]
  dsimp only
  cases hsz : size_checked h.shape with
  | none => rfl
  | some len =>
    dsimp only
    rw [if_neg (by have := hbig len hsz; omega)]

/-- The C10 witness header: shape `(2^32, 2^32)`, whose element count
overflows the 64-bit `usize`. -/
def c10hdr : Header := ⟨.string (ascii "<i4"), false, [4294967296, 4294967296]⟩

/-- The C10 witness header's formatted bytes. -/
def c10bytes : List Nat := (Header.to_bytes c10hdr).toOption.getD []

/-- Witness for C10: reading a file whose header declares shape
`(2^32, 2^32)` fails with `LengthOverflow`. -/
theorem c10_length_overflow_witness :
    read_npy .i32 (c10bytes ++ []) = .error .lengthOverflow := by
  refine c10_length_overflow .i32 (c10bytes ++ []) c10hdr []
    (from_reader_to_bytes (ascii "<i4") false [4294967296, 4294967296] c10bytes []
      (by decide) (by decide) rfl) ?_
  intro len hl
  rw [show size_checked c10hdr.shape = none from by decide] at hl
  cases hl

/-- **C1.** Write-then-read round-trip: for every supported primitive
element type and every array of that type — any shape whose checked
element count is within `isize::MAX` (the host array library's own
construction invariant), any storage order, elements given as bit
patterns in memory order (covering both contiguous branches of
`write_npy`; the strided fallback emits the same bytes as the C-order
branch) — if writing succeeds, reading the produced bytes back with the
same element type succeeds and reproduces the exact shape, the storage
order, the element values, and (through `data` and the shape) the
element count. -/
theorem c1_write_read_roundtrip (E : ElemType) (shape : List Nat)
    (fortran_order : Bool) (data : List Nat) (out : List Nat) (len : Nat)
    (hval : ∀ x ∈ data, x < 256 ^ E.width)
    (hbool : E = .bool → ∀ x ∈ data, x ≤ 1)
    (hsh : ∀ d ∈ shape, d ≤ USIZE_MAX)
    (hcp : size_checked shape = some len)
    (hiz : len ≤ ISIZE_MAX)
    (hlen : data.length = len)
    (hw : write_npy E shape fortran_order data = .ok out) :
    read_npy E out = .ok (⟨E.type_descriptor, fortran_order, shape⟩, data) := by
  unfold write_npy at hw
  cases hhb : Header.to_bytes ⟨E.type_descriptor, fortran_order, shape⟩ with
  | error e =>
    rw [hhb] at hw
    exact absurd hw (by simp)
  | ok hb =>
    rw [hhb] at hw
    dsimp only at hw
    have hout : out = hb ++ write_slice_bytes E data := (Except.ok.inj hw).symm
    subst hout
    rw [type_descriptor_descBytes E] at hhb
    have hfr := from_reader_to_bytes E.descBytes fortran_order shape hb
      (write_slice_bytes E data) (descBytes_ascii E) hsh hhb
    unfold read_npy
    rw [hfr]
    dsimp only
    rw [hcp]
    dsimp only
    rw [if_pos hiz]
    rw [← type_descriptor_descBytes E, show len = data.length from hlen.symm,
      read_write_slice E data hval hbool]

/-- The C1 witness bytes: a 2×3 `i32` array written in C order. -/
def c1bytes : List Nat :=
  (write_npy .i32 [2, 3] false [1, 2, 3, 4, 5, 6]).toOption.getD []

/-- Witness for C1 at a concrete 2×3 `i32` array. -/
theorem c1_write_read_roundtrip_witness :
    read_npy .i32 c1bytes =
      .ok (⟨ElemType.i32.type_descriptor, false, [2, 3]⟩, [1, 2, 3, 4, 5, 6]) :=
  c1_write_read_roundtrip .i32 [2, 3] false [1, 2, 3, 4, 5, 6] c1bytes 6
    (by decide) (by intro h; cases h) (by decide) (by decide) (by decide)
    (by decide) rfl

end NdarrayNpy
